import Mathlib

/-
Verification of the routing + reservation core of the childcare-assistant
repository (capacity store `backend/sql_db.py` = `functioning_code.py`,
router/executor/cleanup `backend/agent.py`).

The embedding is a shallow one: the database table `public."KBBEs"` becomes a
list of rows, SQL statements become pure functions on that list, and Python
exceptions become `Except Unit`.  Machine details that cannot influence the
claims under study (binary floating point, database collations beyond ASCII,
Python `int` underscores) are noted where they are abstracted.
-/

set_option linter.unusedVariables false
set_option maxRecDepth 4096

namespace KBBE

/-! ## Python primitives shared by several functions -/

/-- The set of characters Python's `str.strip` / `str.rstrip` (and the `re`
module's `\s` class) treat as whitespace. -/
def pyIsSpace (c : Char) : Bool :=
  c = ' ' || c = '\t' || c = '\n' || c = '\r' || c = '\x0b' || c = '\x0c' ||
  c = '\x1c' || c = '\x1d' || c = '\x1e' || c = '\x1f' || c = '\x85' || c = '\xa0' ||
  c = '\u1680' || ('\u2000' ≤ c && c ≤ '\u200a') || c = '\u2028' || c = '\u2029' ||
  c = '\u202f' || c = '\u205f' || c = '\u3000'

/-- Remove trailing Python whitespace (`str.rstrip`). -/
def rstripL (cs : List Char) : List Char :=
  (cs.reverse.dropWhile pyIsSpace).reverse

/-- Remove leading and trailing Python whitespace (`str.strip`). -/
def pyStripL (cs : List Char) : List Char :=
  rstripL (cs.dropWhile pyIsSpace)

/-- `str.strip` on `String`. -/
def pyStrip (s : String) : String :=
  (pyStripL s.toList).asString

/-- Digits of a decimal literal to a natural number; `none` when the list is
empty or contains a non-digit. -/
def digitsToNat (ds : List Char) : Option Nat :=
  if ds.isEmpty then none
  else if ds.all Char.isDigit then
    some (ds.foldl (fun a c => a * 10 + (c.toNat - 48)) 0)
  else none

/-- Python `int(s)` on a string: strip whitespace, optional sign, decimal
digits; `none` models `ValueError`.  (Python also allows `_` separators
between digits; those never appear in the data under study.) -/
def pyParseInt (s : String) : Option Int :=
  match pyStripL s.toList with
  | '+' :: ds => (digitsToNat ds).map Int.ofNat
  | '-' :: ds => (digitsToNat ds).map (fun n => -(n : Int))
  | ds => (digitsToNat ds).map Int.ofNat

/-- ASCII model of SQL `lower(..)` (the cities in the data are ASCII apart
from umlauts, which `lower` maps the same way on both sides of every
comparison in the source). -/
def sqlLowerL (cs : List Char) : List Char :=
  cs.map Char.toLower

def sqlLower (s : String) : String :=
  (sqlLowerL s.toList).asString

/-! ## Data model: one row of `public."KBBEs"` -/

/-- A value read from a ledger column: SQL `NULL`, an integer, or text
(the source's `to_int` treats blank text as 0, so text values do occur in
the data model the code defends against). -/
inductive DBVal where
  | vnull
  | vint (n : Int)
  | vstr (s : String)
deriving DecidableEq, Repr

/-- One facility row.  `plz` is modelled as the text the SQL cast
`plz::text` produces. -/
structure Facility where
  kennzahl : Int
  name : String
  ort : String
  plz : String
  telefon : Option String
  email : Option String
  weburl : Option String
  capacity_estimate : DBVal
  current_occupancy : DBVal
  pre_registrations : DBVal
deriving DecidableEq, Repr

abbrev DB := List Facility

/-! ## Capacity store (`functioning_code.py`) -/

/-- The inner `to_int` of `get_free_places`: `None` ↦ 0, blank text ↦ 0,
other text through `int(..)`; `none` models the `ValueError` raised on
non-numeric text. -/
def to_int : DBVal → Option Int
  | .vnull => some 0
  | .vint n => some n
  | .vstr s =>
      let t := pyStripL s.toList
      if t.isEmpty then some 0 else pyParseInt t.asString

/-- Rows returned by `SELECT ... WHERE kennzahl = %s` in table order. -/
def rowsFor (db : DB) (kennzahl : Int) : List Facility :=
  db.filter (fun r => r.kennzahl = kennzahl)

/-- `get_free_places`: `ok none` when the id is unknown, otherwise the
clamped difference of the first matching row's ledger fields;
`error` models a Python exception from `int(..)`. -/
def get_free_places (db : DB) (kennzahl : Int) : Except Unit (Option Int) :=
  match rowsFor db kennzahl with
  | [] => .ok none
  | r :: _ =>
    match to_int r.capacity_estimate, to_int r.current_occupancy,
        to_int r.pre_registrations with
    | some cap, some occ, some pre => .ok (some (max (cap - occ - pre) 0))
    | _, _, _ => .error ()

/-- The SQL expression `COALESCE(pre_registrations, 0) + 1`.  On a text
value the statement does not typecheck in the store, modelled as `error`. -/
def coalesceInc : DBVal → Except Unit DBVal
  | .vnull => .ok (.vint 1)
  | .vint n => .ok (.vint (n + 1))
  | .vstr _ => .error ()

/-- The `UPDATE ... SET pre_registrations = COALESCE(pre_registrations,0)+1
WHERE kennzahl = %s` statement. -/
def updateInc : DB → Int → Except Unit DB
  | [], _ => .ok []
  | r :: rest, k => do
      let r' ←
        if r.kennzahl = k then do
          let v ← coalesceInc r.pre_registrations
          pure { r with pre_registrations := v }
        else pure r
      let rest' ← updateInc rest k
      pure (r' :: rest')

/-- First half of `reserve_place`: the re-read of `free_places`
(`free = get_free_places(kennzahl)`), on its own database connection. -/
def reserve_read (db : DB) (kennzahl : Int) : Except Unit (Option Int) :=
  get_free_places db kennzahl

/-- Second half of `reserve_place`: the `if`-check on the value read plus
the increment `UPDATE`, issued against the store's current state. -/
def reserve_commit (db : DB) (kennzahl : Int) (free : Option Int) :
    Except Unit (Bool × DB) :=
  match free with
  | none => .ok (false, db)
  | some f =>
      if f ≤ 0 then .ok (false, db)
      else do
        let db' ← updateInc db kennzahl
        .ok (true, db')

/-- `reserve_place(kennzahl, parent_name, parent_email, child_name)`.
The three contact arguments are accepted and ignored, exactly as in the
(dynamically typed) source: `# optional: später Vormerkdetails ...
schreiben`. -/
def reserve_place {α β γ : Type} (db : DB) (kennzahl : Int)
    (parent_name : α) (parent_email : β) (child_name : γ) : Except Unit (Bool × DB) := do
  let free ← reserve_read db kennzahl
  reserve_commit db kennzahl free

/-- `SELECT ... WHERE kennzahl = %s` and `rows[0] if rows else None`. -/
def get_facility_by_kennzahl (db : DB) (kennzahl : Int) : Option Facility :=
  (rowsFor db kennzahl).head?

/-- `UPDATE ... SET pre_registrations = 0` applied to one row. -/
def setPreZero (r : Facility) : Facility :=
  { r with pre_registrations := .vint 0 }

/-- Python truthiness of the `city` argument (`if city:`): `None` and the
empty string are falsy. -/
def truthyCity : Option String → Bool
  | none => false
  | some c => !(c = "")

/-- `reset_pre_registrations(city=None)`: all rows when `city` is falsy,
otherwise the rows whose `lower(ort)` equals `lower(city)`. -/
def reset_pre_registrations (db : DB) (city : Option String) : DB :=
  if truthyCity city then
    db.map (fun r =>
      if sqlLower r.ort = sqlLower (city.getD "") then setPreZero r else r)
  else
    db.map setPreZero

/-! ## Facility search (`get_facilities_by_query`) -/

/-- `clean_contact_field`: falsy input gives `None`, otherwise the part
before the first `(` with surrounding whitespace stripped (possibly the
empty string). -/
def clean_contact_field : Option String → Option String
  | none => none
  | some s =>
      if s = "" then none
      else some (pyStripL (s.toList.takeWhile (fun c => !(c = '('))) |>.asString)

/-- The contact-cleaning loop applied to one fetched row. -/
def cleanRow (r : Facility) : Facility :=
  { r with
    telefon := clean_contact_field r.telefon
    email := clean_contact_field r.email
    weburl := clean_contact_field r.weburl }

/-- ASCII model of Python `str.isdigit` on the characters of the data. -/
def numericQuery (q : String) : Bool :=
  let ds := q.toList.filter (fun c => !(c = ' '))
  !ds.isEmpty && ds.all Char.isDigit

/-- SQL `LIKE` pattern matching (`%` any sequence, `_` any one character,
`\` escapes), fuel-recursive so that it evaluates by kernel reduction. -/
def likeMatchF : Nat → List Char → List Char → Bool
  | 0, _, _ => false
  | _ + 1, [], s => s.isEmpty
  | n + 1, '%' :: p, s =>
      likeMatchF n p s ||
        (match s with
         | [] => false
         | _ :: s2 => likeMatchF n ('%' :: p) s2)
  | n + 1, '_' :: p, s =>
      (match s with
       | [] => false
       | _ :: s2 => likeMatchF n p s2)
  | n + 1, '\\' :: c :: p, s =>
      (match s with
       | [] => false
       | d :: s2 => c = d && likeMatchF n p s2)
  | _ + 1, '\\' :: [], _ => false
  | n + 1, c :: p, s =>
      (match s with
       | [] => false
       | d :: s2 => c = d && likeMatchF n p s2)

/-- Postgres `ILIKE`: case-insensitive `LIKE` (modelled by lowering both
sides). -/
def ilike (s pat : String) : Bool :=
  let sl := sqlLowerL s.toList
  let pl := sqlLowerL pat.toList
  likeMatchF (pl.length + sl.length + 1) pl sl

/-- The row order produced by `ORDER BY ort, name`. -/
def RowLe (a b : Facility) : Prop :=
  a.ort < b.ort ∨ (a.ort = b.ort ∧ a.name ≤ b.name)

instance : DecidableRel RowLe := fun a b => by
  unfold RowLe
  infer_instance

def orderByOrtName (rows : List Facility) : List Facility :=
  rows.insertionSort RowLe

/-- The `WHERE` clause of the city branch:
`lower(ort) = lower(%s) OR ort ILIKE %s` with the pattern `%q%`. -/
def sqlCityMatch (q : String) (r : Facility) : Bool :=
  (sqlLower r.ort = sqlLower q) || ilike r.ort ("%" ++ q ++ "%")

/-- The row filter `get_facilities_by_query` actually applies once the
stripped query is non-blank. -/
def codeMatches (q : String) (r : Facility) : Bool :=
  if numericQuery q then r.plz = q else sqlCityMatch q r

/-- `get_facilities_by_query(query)`: strip; blank gives `[]`; digits-only
(after removing blanks) compares `plz::text` with the stripped query;
otherwise the city match; `ORDER BY ort, name`; contacts cleaned. -/
def get_facilities_by_query (db : DB) (query : String) : List Facility :=
  let q := pyStrip query
  if q = "" then []
  else (orderByOrtName (db.filter (codeMatches q))).map cleanRow

/-- Case-insensitive containment used by the claim's wording. -/
def startsWithL : List Char → List Char → Bool
  | [], _ => true
  | _ :: _, [] => false
  | a :: as, b :: bs => a = b && startsWithL as bs

def containsL (needle hay : List Char) : Bool :=
  match hay with
  | [] => needle.isEmpty
  | _ :: t => startsWithL needle hay || containsL needle t

/-- C5's wording of "purely numeric". -/
def claimNumeric (q : String) : Bool :=
  !q.toList.isEmpty && q.toList.all Char.isDigit

/-- C5's wording of the city match: equality case-insensitively, or
containment as a case-insensitive substring. -/
def claimCityMatch (q : String) (r : Facility) : Bool :=
  (sqlLower r.ort = sqlLower q) || containsL (sqlLowerL q.toList) (sqlLowerL r.ort.toList)

/-- `find_facilities` exactly as the claim words it (for comparison with
`get_facilities_by_query`; this definition follows the spec's sentence, not
the source). -/
def spec_find_facilities (db : DB) (query : String) : List Facility :=
  let q := pyStrip query
  if q = "" then []
  else if claimNumeric q then
    (orderByOrtName (db.filter (fun r => r.plz = q))).map cleanRow
  else
    (orderByOrtName (db.filter (claimCityMatch q))).map cleanRow

instance : IsTotal Facility RowLe :=
  ⟨by
    intro a b
    unfold RowLe
    rcases lt_trichotomy a.ort b.ort with h | h | h
    · exact Or.inl (Or.inl h)
    · rcases le_total a.name b.name with hn | hn
      · exact Or.inl (Or.inr ⟨h, hn⟩)
      · exact Or.inr (Or.inr ⟨h.symm, hn⟩)
    · exact Or.inr (Or.inl h)⟩

instance : IsTrans Facility RowLe :=
  ⟨by
    intro a b c hab hbc
    unfold RowLe at *
    rcases hab with h1 | ⟨h1, hn1⟩
    · rcases hbc with h2 | ⟨h2, _⟩
      · exact Or.inl (h1.trans h2)
      · exact Or.inl (h2 ▸ h1)
    · rcases hbc with h2 | ⟨h2, hn2⟩
      · exact Or.inl (h1 ▸ h2)
      · exact Or.inr ⟨h1.trans h2, hn1.trans hn2⟩⟩

/-! ## JSON values and `json.loads` (used by the router in `agent.py`) -/

/-- A parsed JSON value.  Numbers keep their lexeme (the router never does
arithmetic on them before `int(..)`, which is modelled separately). -/
inductive Json where
  | jnull
  | jbool (b : Bool)
  | jnum (lexeme : String)
  | jstr (s : String)
  | jarr (elems : List Json)
  | jobj (fields : List (String × Json))

/-- JSON insignificant whitespace. -/
def jsonWs (c : Char) : Bool :=
  c = ' ' || c = '\t' || c = '\n' || c = '\r'

def skipWs (cs : List Char) : List Char :=
  cs.dropWhile jsonWs

def hexVal (c : Char) : Option Nat :=
  if '0' ≤ c && c ≤ '9' then some (c.toNat - 48)
  else if 'a' ≤ c && c ≤ 'f' then some (c.toNat - 87)
  else if 'A' ≤ c && c ≤ 'F' then some (c.toNat - 55)
  else none

def hex4 (a b c d : Char) : Option Nat := do
  let va ← hexVal a
  let vb ← hexVal b
  let vc ← hexVal c
  let vd ← hexVal d
  pure (((va * 16 + vb) * 16 + vc) * 16 + vd)

/-- One-character escapes of JSON strings. -/
def escChar : Char → Option Char
  | '"' => some '"'
  | '\\' => some '\\'
  | '/' => some '/'
  | 'b' => some '\x08'
  | 'f' => some '\x0c'
  | 'n' => some '\n'
  | 'r' => some '\r'
  | 't' => some '\t'
  | _ => none

/-- Body of a JSON string after the opening quote: returns the decoded
characters and the input after the closing quote.  Unpaired surrogates
(which Python keeps as lone surrogate code units) are not representable in
`Char` and become U+FFFD; no claim depends on them.  Raw control
characters are rejected as in Python's strict mode. -/
def parseStrBody : Nat → List Char → Option (List Char × List Char)
  | 0, _ => none
  | _ + 1, [] => none
  | n + 1, c :: rest =>
    if c = '"' then some ([], rest)
    else if c = '\\' then
      match rest with
      | [] => none
      | e :: rest2 =>
        if e = 'u' then
          match rest2 with
          | h1 :: h2 :: h3 :: h4 :: rest3 =>
            match hex4 h1 h2 h3 h4 with
            | none => none
            | some v =>
              if 0xd800 ≤ v && v ≤ 0xdbff then
                match rest3 with
                | '\\' :: 'u' :: g1 :: g2 :: g3 :: g4 :: rest4 =>
                  match hex4 g1 g2 g3 g4 with
                  | some w =>
                    if 0xdc00 ≤ w && w ≤ 0xdfff then
                      (parseStrBody n rest4).map (fun p =>
                        (Char.ofNat (0x10000 + (v - 0xd800) * 0x400 + (w - 0xdc00)) :: p.1, p.2))
                    else (parseStrBody n rest3).map (fun p => (Char.ofNat 0xfffd :: p.1, p.2))
                  | none => (parseStrBody n rest3).map (fun p => (Char.ofNat 0xfffd :: p.1, p.2))
                | _ => (parseStrBody n rest3).map (fun p => (Char.ofNat 0xfffd :: p.1, p.2))
              else if 0xdc00 ≤ v && v ≤ 0xdfff then
                (parseStrBody n rest3).map (fun p => (Char.ofNat 0xfffd :: p.1, p.2))
              else
                (parseStrBody n rest3).map (fun p => (Char.ofNat v :: p.1, p.2))
          | _ => none
        else
          match escChar e with
          | some c2 => (parseStrBody n rest2).map (fun p => (c2 :: p.1, p.2))
          | none => none
    else if c.toNat < 0x20 then none
    else (parseStrBody n rest).map (fun p => (c :: p.1, p.2))

/-- The integer part of a JSON number: `0` or a nonzero digit followed by
digits.  Returns the lexeme part and the rest. -/
def parseIntPart : List Char → Option (List Char × List Char)
  | '0' :: rest => some (['0'], rest)
  | c :: rest =>
      if c.isDigit then
        let ds := rest.takeWhile Char.isDigit
        some (c :: ds, rest.drop ds.length)
      else none
  | [] => none

/-- `.digits` fraction part (optional). -/
def parseFracPart (cs : List Char) : Option (List Char × List Char) :=
  match cs with
  | '.' :: rest =>
      let ds := rest.takeWhile Char.isDigit
      if ds.isEmpty then none else some ('.' :: ds, rest.drop ds.length)
  | _ => some ([], cs)

/-- `e`/`E` exponent part (optional). -/
def parseExpPart (cs : List Char) : Option (List Char × List Char) :=
  match cs with
  | c :: rest =>
      if c = 'e' || c = 'E' then
        match rest with
        | s :: rest2 =>
            if s = '+' || s = '-' then
              let ds := rest2.takeWhile Char.isDigit
              if ds.isEmpty then none else some (c :: s :: ds, rest2.drop ds.length)
            else
              let ds := rest.takeWhile Char.isDigit
              if ds.isEmpty then none else some (c :: ds, rest.drop ds.length)
        | [] => none
      else some ([], cs)
  | [] => some ([], cs)

/-- A JSON number lexeme (`-? int frac? exp?`). -/
def parseNumberLex (cs : List Char) : Option (List Char × List Char) :=
  let core : List Char → Option (List Char × List Char) := fun cs2 => do
    let (ip, r1) ← parseIntPart cs2
    let (fp, r2) ← parseFracPart r1
    let (ep, r3) ← parseExpPart r2
    pure (ip ++ fp ++ ep, r3)
  match cs with
  | '-' :: rest => (core rest).map (fun p => ('-' :: p.1, p.2))
  | _ => core cs

mutual

/-- `json.loads`-style recursive-descent value parsing with explicit fuel
(the fuel only bounds nesting, every call consumes input). -/
def parseValue : Nat → List Char → Option (Json × List Char)
  | 0, _ => none
  | n + 1, cs0 =>
    let cs := skipWs cs0
    if startsWithL "null".toList cs then some (.jnull, cs.drop 4)
    else if startsWithL "true".toList cs then some (.jbool true, cs.drop 4)
    else if startsWithL "false".toList cs then some (.jbool false, cs.drop 5)
    else if startsWithL "NaN".toList cs then some (.jnum "NaN", cs.drop 3)
    else if startsWithL "Infinity".toList cs then some (.jnum "Infinity", cs.drop 8)
    else if startsWithL "-Infinity".toList cs then some (.jnum "-Infinity", cs.drop 9)
    else
      match cs with
      | [] => none
      | c :: rest =>
        if c = '"' then
          match parseStrBody (rest.length + 1) rest with
          | some (content, rest2) => some (.jstr content.asString, rest2)
          | none => none
        else if c = '\x7b' then parseObj n rest
        else if c = '[' then parseArr n rest
        else if c = '-' || c.isDigit then
          match parseNumberLex cs with
          | some (lex, rest2) => some (.jnum lex.asString, rest2)
          | none => none
        else none

/-- An object after its opening brace. -/
def parseObj : Nat → List Char → Option (Json × List Char)
  | 0, _ => none
  | n + 1, cs =>
    match skipWs cs with
    | '\x7d' :: rest => some (.jobj [], rest)
    | cs2 =>
      match parsePairs n cs2 with
      | some (kvs, rest) => some (.jobj kvs, rest)
      | none => none

/-- `"key": value (, "key": value)*` then the closing brace. -/
def parsePairs : Nat → List Char → Option (List (String × Json) × List Char)
  | 0, _ => none
  | n + 1, cs =>
    match skipWs cs with
    | '"' :: rest =>
      match parseStrBody (rest.length + 1) rest with
      | none => none
      | some (key, rest2) =>
        match skipWs rest2 with
        | ':' :: rest3 =>
          match parseValue n rest3 with
          | none => none
          | some (v, rest4) =>
            match skipWs rest4 with
            | ',' :: rest5 =>
              match parsePairs n rest5 with
              | some (kvs, rest6) => some ((key.asString, v) :: kvs, rest6)
              | none => none
            | '\x7d' :: rest5 => some ([(key.asString, v)], rest5)
            | _ => none
        | _ => none
    | _ => none

/-- An array after its opening bracket. -/
def parseArr : Nat → List Char → Option (Json × List Char)
  | 0, _ => none
  | n + 1, cs =>
    match skipWs cs with
    | ']' :: rest => some (.jarr [], rest)
    | cs2 =>
      match parseItems n cs2 with
      | some (vs, rest) => some (.jarr vs, rest)
      | none => none

/-- `value (, value)*` then the closing bracket. -/
def parseItems : Nat → List Char → Option (List Json × List Char)
  | 0, _ => none
  | n + 1, cs =>
    match parseValue n cs with
    | none => none
    | some (v, rest) =>
      match skipWs rest with
      | ',' :: rest2 =>
        match parseItems n rest2 with
        | some (vs, rest3) => some (v :: vs, rest3)
        | none => none
      | ']' :: rest2 => some ([v], rest2)
      | _ => none

end

/-- `json.loads(raw)`: parse one value and insist the remainder is
whitespace; `none` models `json.JSONDecodeError`. -/
def json_loads (s : String) : Option Json :=
  match parseValue (s.toList.length + 2) s.toList with
  | none => none
  | some (v, rest) => if (skipWs rest).isEmpty then some v else none

/-! ## The router's defensive parsing (`decide_sql_action`) -/

/-- Python `"action" in data` for a dict. -/
def objHasKey (kvs : List (String × Json)) (k : String) : Bool :=
  kvs.any (fun kv => kv.1 = k)

/-- The `{"action": "none"}` fallback decision. -/
def noActionDecision : Json := .jobj [("action", .jstr "none")]

/-- The `if "action" not in data: data["action"] = "none"` epilogue,
applied to whatever `json.loads` produced.  On a dict it inserts the
default; on a list or string Python's `in` is membership / substring test
and the subsequent item assignment raises `TypeError` (modelled as
`error`); on numbers, booleans and `None` the `in` itself raises. -/
def decodeFinalize (data : Json) : Except Unit Json :=
  match data with
  | .jobj kvs =>
      if objHasKey kvs "action" then .ok data
      else .ok (.jobj (kvs ++ [("action", .jstr "none")]))
  | .jarr xs =>
      if xs.any (fun x => match x with | .jstr s => s = "action" | _ => false) then
        .ok data
      else .error ()
  | .jstr s => if containsL "action".toList s.toList then .ok data else .error ()
  | _ => .error ()

/-- `re.search(r"\x7b.*\x7d", raw, re.DOTALL)`: the substring from the
first opening brace to the last closing brace after it, if any. -/
def braceExtract (cs : List Char) : Option (List Char) :=
  match cs.dropWhile (fun c => !(c = '\x7b')) with
  | [] => none
  | c :: t =>
      if ((t.reverse.dropWhile (fun x => !(x = '\x7d'))).reverse).isEmpty then none
      else some (c :: (t.reverse.dropWhile (fun x => !(x = '\x7d'))).reverse)

/-- The parsing tail of `decide_sql_action` applied to the oracle's raw
output: `json.loads`, on failure the brace-substring retry, then the
`action`-key defaulting. -/
def routerParse (raw : String) : Except Unit Json :=
  match json_loads raw with
  | some data => decodeFinalize data
  | none =>
    match braceExtract raw.toList with
    | none => .ok noActionDecision
    | some sub =>
      match json_loads sub.asString with
      | some data => decodeFinalize data
      | none => .ok noActionDecision

/-- One chat message as the router sees it. -/
structure Message where
  role : String
  content : String
deriving DecidableEq, Repr

/-- The `for m in reversed(messages): if m["role"] == "user"` scan. -/
def lastUserContent (messages : List Message) : Option String :=
  (messages.reverse.find? (fun m => m.role = "user")).map (fun m => m.content)

/-- `decide_sql_action(messages)`, with the oracle call abstracted as a
function from the last user utterance to the raw text of its reply
(`output_text`).  `if not last_user:` returns the no-action decision both
when no user message exists and when its content is empty. -/
def decide_sql_action (oracle : String → String) (messages : List Message) :
    Except Unit Json :=
  match lastUserContent messages with
  | none => .ok noActionDecision
  | some lastUser =>
      if lastUser = "" then .ok noActionDecision
      else routerParse (oracle lastUser)

/-! ## Citation cleanup (`_clean_citations`) -/

/-- Private-use plane characters and U+FFFD, as tested by `is_bad_char`. -/
def isBadChar (c : Char) : Bool :=
  (0xe000 ≤ c.toNat && c.toNat ≤ 0xf8ff) ||
  (0xf0000 ≤ c.toNat && c.toNat ≤ 0xffffd) ||
  (0x100000 ≤ c.toNat && c.toNat ≤ 0x10fffd) ||
  c.toNat = 0xfffd

/-- A `filecite` marker starts at the head of the list. -/
def isFileciteAt (cs : List Char) : Bool :=
  startsWithL "filecite".toList cs

/-- `re.sub(r"filecite.*?(?=\s|$)", "", text)`: at each occurrence of
`filecite` the match runs up to (excluding) the next regex whitespace
character or the end (the lazy `.*?` with the lookahead stops exactly
there; `.` cannot cross a newline, but `\n` is itself `\s`, so the bound is
the same), and scanning resumes after the removed span. -/
def subFileciteF : Nat → List Char → List Char
  | 0, cs => cs
  | _ + 1, [] => []
  | n + 1, c :: rest =>
      if isFileciteAt (c :: rest) then
        subFileciteF n (((c :: rest).drop 8).dropWhile (fun x => !pyIsSpace x))
      else c :: subFileciteF n rest

def subFilecite (cs : List Char) : List Char :=
  subFileciteF (cs.length + 1) cs

/-- Length of a `turn\d+file\d+` match at the head of the list, if any
(the digit runs are the maximal ones, exactly as the greedy `\d+`
matches them since `f` is not a digit). -/
def turnMatchLen (cs : List Char) : Option Nat :=
  if startsWithL "turn".toList cs then
    if ((cs.drop 4).takeWhile Char.isDigit).isEmpty then none
    else if startsWithL "file".toList
        (cs.drop (4 + ((cs.drop 4).takeWhile Char.isDigit).length)) then
      if ((cs.drop (4 + ((cs.drop 4).takeWhile Char.isDigit).length + 4)).takeWhile
          Char.isDigit).isEmpty then none
      else some (4 + ((cs.drop 4).takeWhile Char.isDigit).length + 4 +
        ((cs.drop (4 + ((cs.drop 4).takeWhile Char.isDigit).length + 4)).takeWhile
          Char.isDigit).length)
    else none
  else none

/-- `re.sub(r"turn\d+file\d+", "", text)`. -/
def subTurnFileF : Nat → List Char → List Char
  | 0, cs => cs
  | _ + 1, [] => []
  | n + 1, c :: rest =>
      match turnMatchLen (c :: rest) with
      | some len => subTurnFileF n ((c :: rest).drop len)
      | none => c :: subTurnFileF n rest

def subTurnFile (cs : List Char) : List Char :=
  subTurnFileF (cs.length + 1) cs

/-- Head of the list is a space (helper for the space-collapsing scan). -/
def headIsSpace : List Char → Bool
  | c :: _ => c = ' '
  | [] => false

/-- `re.sub(r"[ ]\x7b2,\x7d", " ", text)`: every maximal run of two or more
spaces becomes a single space (newlines untouched). -/
def collapseSpaces : List Char → List Char
  | [] => []
  | c :: rest =>
      if c = ' ' && headIsSpace rest then collapseSpaces rest
      else c :: collapseSpaces rest

/-- The line terminators recognized by Python `str.splitlines`. -/
def isLineTerm (c : Char) : Bool :=
  c = '\n' || c = '\r' || c = '\x0b' || c = '\x0c' || c = '\x1c' || c = '\x1d' ||
  c = '\x1e' || c = '\x85' || c = '\u2028' || c = '\u2029'

/-- Head of the list is a newline. -/
def headIsNl : List Char → Bool
  | c :: _ => c = '\n'
  | [] => false

/-- `str.splitlines` (with `\r\n` as a single terminator and no trailing
empty line), fuel-recursive; every step consumes at least one character,
so `length + 1` fuel always suffices. -/
def splitlinesAuxF : Nat → List Char → List Char → List (List Char)
  | 0, _, _ => []
  | _ + 1, [], acc => if acc.isEmpty then [] else [acc.reverse]
  | n + 1, c :: rest, acc =>
      if isLineTerm c then
        if c = '\r' && headIsNl rest then acc.reverse :: splitlinesAuxF n rest.tail []
        else acc.reverse :: splitlinesAuxF n rest []
      else splitlinesAuxF n rest (c :: acc)

def splitlines (cs : List Char) : List (List Char) :=
  splitlinesAuxF (cs.length + 1) cs []

/-- `_clean_citations` on a character list: the two marker substitutions,
the bad-character filter, space collapapsing, per-line `rstrip` joined with
`"\n"`, and a final `strip`. -/
def cleanCitationsL (cs : List Char) : List Char :=
  pyStripL (List.intercalate ['\n']
    ((splitlines (collapseSpaces
      ((subTurnFile (subFilecite cs)).filter (fun c => !isBadChar c)))).map rstripL))

def clean_citations (s : String) : String :=
  (cleanCitationsL s.toList).asString

/-- `filecite` occurs somewhere in the list. -/
def hasFilecite : List Char → Bool
  | [] => false
  | c :: rest => isFileciteAt (c :: rest) || hasFilecite rest

/-- A `turn\d+file\d+` match starts somewhere in the list. -/
def hasTurnFile : List Char → Bool
  | [] => false
  | c :: rest => (turnMatchLen (c :: rest)).isSome || hasTurnFile rest

/-- The whitespace-normalizing tail of the cleanup pipeline (space
collapsing, per-line `rstrip`, join, `strip`): what `_clean_citations`
computes when the marker substitutions and the character filter do not
change the text. -/
def stripJoined (x : List Char) : List Char :=
  pyStripL (List.intercalate ['\n'] ((splitlines (collapseSpaces x)).map rstripL))

/-- Adjacent characters are not both plain spaces. -/
def NoTwoSpaces (a b : Char) : Prop :=
  ¬(a = ' ' ∧ b = ' ')

/-- No whitespace character other than `\n` directly precedes a `\n`
(i.e. every line is right-stripped). -/
def NoWsNl (a b : Char) : Prop :=
  ¬(pyIsSpace a = true ∧ a ≠ '\n' ∧ b = '\n')

/-! ## Action executor: the SQL part of `run_agent` -/

/-- The context fragments `run_agent` renders, with the German prose
abstracted to constructors carrying exactly the data interpolated into it
(`name` is the resolved facility name or the fallback label
`"Einrichtung mit Kennzahl <id>"`). -/
inductive Fragment where
  | listResult (rows : List Facility) (city : String)
  | noCapacityInfo (name : String) (kennzahl : Int)
  | placesAvailable (name : String) (kennzahl : Int) (free : Int)
  | noPlacesFree (name : String) (kennzahl : Int)
  | reservedOk (childName : Json) (name : String) (kennzahl : Int)
  | reservedFail (name : String) (kennzahl : Int)

/-- Python `x == "<literal>"` on a JSON value. -/
def jsonIsStr (j : Json) (s : String) : Bool :=
  match j with
  | .jstr t => t = s
  | _ => false

/-- Python `x is None` on a JSON value. -/
def jsonIsNull : Json → Bool
  | .jnull => true
  | _ => false

/-- Whether a JSON number lexeme denotes zero (its mantissa has digits and
they are all `0`); `NaN`/`Infinity` are nonzero. -/
def numLexIsZero (lex : String) : Bool :=
  let m := lex.toList.takeWhile (fun c => !(c = 'e' || c = 'E'))
  m.any Char.isDigit && m.all (fun c => !c.isDigit || c = '0')

/-- Python truthiness of a JSON value. -/
def jsonTruthy : Json → Bool
  | .jnull => false
  | .jbool b => b
  | .jstr s => !(s = "")
  | .jnum lex => !(numLexIsZero lex)
  | .jarr xs => !xs.isEmpty
  | .jobj kvs => !kvs.isEmpty

/-- Python `dict.get(k, dflt)` (last binding wins, as in a dict built by
repeated insertion). -/
def dictGet (kvs : List (String × Json)) (k : String) (dflt : Json) : Json :=
  match kvs.reverse.find? (fun kv => kv.1 = k) with
  | some kv => kv.2
  | none => dflt

/-- The integer exponent of a number lexeme's exponent part. -/
def parseExpInt : List Char → Int
  | [] => 0
  | _ :: rest =>
    match rest with
    | '-' :: ds => -(((digitsToNat ds).getD 0 : Nat) : Int)
    | '+' :: ds => (((digitsToNat ds).getD 0 : Nat) : Int)
    | ds => (((digitsToNat ds).getD 0 : Nat) : Int)

/-- Truncation toward zero of an unsigned decimal number lexeme (exact
decimal arithmetic; the binary rounding of Python floats differs only
beyond 2^53, far outside any facility id). -/
def numLexTruncU (cs : List Char) : Option Nat := do
  let (ip, r1) ← parseIntPart cs
  let (fp, r2) ← parseFracPart r1
  let (ep, r3) ← parseExpPart r2
  if r3.isEmpty then
    let fdigits := match fp with | _ :: ds => ds | [] => []
    let n ← digitsToNat (ip ++ fdigits)
    let e : Int := parseExpInt ep - fdigits.length
    if 0 ≤ e then pure (n * 10 ^ e.toNat) else pure (n / 10 ^ (-e).toNat)
  else none

def numLexTrunc (cs : List Char) : Option Int :=
  match cs with
  | '-' :: rest => (numLexTruncU rest).map (fun n => -(n : Int))
  | _ => (numLexTruncU cs).map Int.ofNat

/-- `int(kennzahl)` on the JSON slot value: numbers truncate toward zero,
strings parse as decimal integers, booleans become 0/1, everything else
(`None`, lists, dicts, `NaN`, `Infinity`) raises. -/
def pyIntOfJson : Json → Except Unit Int
  | .jbool b => .ok (if b then 1 else 0)
  | .jnum lex =>
      if lex.toList.any (fun c => c = '.' || c = 'e' || c = 'E') then
        match numLexTrunc lex.toList with
        | some n => .ok n
        | none => .error ()
      else
        match pyParseInt lex with
        | some n => .ok n
        | none => .error ()
  | .jstr s =>
      match pyParseInt s with
      | some n => .ok n
      | none => .error ()
  | _ => .error ()

/-- The fallback label used when the facility id resolves to no row. -/
def fallbackLabel (k : Int) : String :=
  "Einrichtung mit Kennzahl " ++ toString k

/-- The facility-name resolution `fac.get("name", fallback)` after the
`if fac: ... else: ...` in `run_agent`. -/
def resolveName (fac : Option Facility) (k : Int) : String :=
  match fac with
  | some f => f.name
  | none => fallbackLabel k

/-- Steps 1-2 of `run_agent` for one routing decision `dec` (a parsed
dict): the SQL action plus rendered context fragments, with the store
threaded through (a reservation mutates it).  `error` models an uncaught
Python exception such as `int("abc")`. -/
def run_agent_sql (db : DB) (dec : List (String × Json)) :
    Except Unit (List Fragment × DB) :=
  if jsonIsStr (dictGet dec "action" (.jstr "none")) "list_facilities" &&
      jsonTruthy (dictGet dec "city" .jnull) then
    match dictGet dec "city" .jnull with
    | .jstr c => .ok ([.listResult (get_facilities_by_query db c) c], db)
    | _ => .error ()
  else if jsonIsStr (dictGet dec "action" (.jstr "none")) "check_free_places" &&
      !(jsonIsNull (dictGet dec "kennzahl" .jnull)) then do
    let k ← pyIntOfJson (dictGet dec "kennzahl" .jnull)
    let fac := get_facility_by_kennzahl db k
    let free ← get_free_places db k
    match free with
    | none => .ok ([.noCapacityInfo (resolveName fac k) k], db)
    | some fr =>
        if 0 < fr then .ok ([.placesAvailable (resolveName fac k) k fr], db)
        else .ok ([.noPlacesFree (resolveName fac k) k], db)
  else if jsonIsStr (dictGet dec "action" (.jstr "none")) "reserve_place" &&
      !(jsonIsNull (dictGet dec "kennzahl" .jnull)) &&
      jsonTruthy (dictGet dec "parent_name" .jnull) &&
      jsonTruthy (dictGet dec "parent_email" .jnull) &&
      jsonTruthy (dictGet dec "child_name" .jnull) then do
    let k ← pyIntOfJson (dictGet dec "kennzahl" .jnull)
    let fac := get_facility_by_kennzahl db k
    let res ← reserve_place db k (dictGet dec "parent_name" .jnull)
      (dictGet dec "parent_email" .jnull) (dictGet dec "child_name" .jnull)
    if res.1 then
      .ok ([.reservedOk (dictGet dec "child_name" .jnull) (resolveName fac k) k], res.2)
    else
      .ok ([.reservedFail (resolveName fac k) k], res.2)
  else .ok ([], db)

/-! ## Concrete databases used by witnesses and counterexamples -/

/-- A check-free-places decision whose kennzahl slot is a non-numeric
string. -/
def invalidIdDec : List (String × Json) :=
  [("action", .jstr "check_free_places"), ("kennzahl", .jstr "abc")]

/-- A check-free-places decision for an id no facility has. -/
def unknownIdDec : List (String × Json) :=
  [("action", .jstr "check_free_places"), ("kennzahl", .jnum "999")]

/-- Scenario E's oracle output: prose around one JSON object. -/
def welsRaw : String :=
  "here is your answer: \x7b\"action\": \"list_facilities\", \"city\": \"Wels\"\x7d"

/-- The object embedded in `welsRaw`. -/
def welsSub : String :=
  "\x7b\"action\": \"list_facilities\", \"city\": \"Wels\"\x7d"

/-- Oracle output with a valid object followed by more prose and a second
brace pair: the greedy
first-brace-to-last-brace extraction is not valid JSON here, although the
first *balanced* brace substring is. -/
def greedyRaw : String :=
  "pre \x7b\"action\": \"list_facilities\", \"city\": \"Wels\"\x7d tail \x7b\"x\": 1\x7d"

/-- The decision Scenario E expects. -/
def welsDecision : Json :=
  .jobj [("action", .jstr "list_facilities"), ("city", .jstr "Wels")]

def gfpW : DB :=
  [⟨4010, "Kita A", "Linz", "4020", none, none, none, .vint 5, .vnull, .vstr ""⟩]

def reserveW : DB :=
  [⟨401, "Kita A", "Linz", "4020", none, none, none, .vint 3, .vint 1, .vnull⟩,
   ⟨402, "Kita B", "Wels", "4600", none, none, none, .vint 2, .vint 2, .vint 0⟩]

/-- The facility used to exhibit the reservation race: one free place. -/
def raceDb : DB :=
  [⟨401, "Krabbelstube A", "Linz", "4020", none, none, none, .vint 1, .vint 0, .vint 0⟩]

def raceDb1 : DB :=
  [⟨401, "Krabbelstube A", "Linz", "4020", none, none, none, .vint 1, .vint 0, .vint 1⟩]

def raceDb2 : DB :=
  [⟨401, "Krabbelstube A", "Linz", "4020", none, none, none, .vint 1, .vint 0, .vint 2⟩]

/-- The facility used to refute C6 at `city = ""`. -/
def resetDbW : DB :=
  [⟨1, "Kita A", "Linz", "4020", none, none, none, .vint 10, .vint 2, .vint 5⟩]

/-- A facility whose city name contains the digit-and-blank query "40 20". -/
def c5dbA : DB :=
  [⟨7, "Kita", "Haus 40 20", "9999", none, none, none, .vnull, .vnull, .vnull⟩]

/-- A facility in Linz, for the wildcard query. -/
def c5dbB : DB :=
  [⟨8, "Kita", "Linz", "4020", none, none, none, .vnull, .vnull, .vnull⟩]

/-! ## Properties of the capacity store -/

/-- All three ledger fields of a row convert through `to_int` without an
exception (they are `NULL`, numbers, or blank/numeric text). -/
def ledgerReadable (r : Facility) : Prop :=
  (to_int r.capacity_estimate).isSome ∧ (to_int r.current_occupancy).isSome ∧
    (to_int r.pre_registrations).isSome

/-- The `pre_registrations` field has the integer type the increment
`UPDATE` statement needs (`NULL` or an integer). -/
def preIncrementable (r : Facility) : Prop :=
  r.pre_registrations = .vnull ∨ ∃ n, r.pre_registrations = .vint n

theorem rowsFor_eq_nil (db : DB) (k : Int) (h : ∀ r ∈ db, r.kennzahl ≠ k) :
    rowsFor db k = [] := by
  simp only [rowsFor, List.filter_eq_nil_iff]
  intro a ha
  simpa using h a ha

theorem mem_of_rowsFor_cons (db : DB) (k : Int) (r : Facility) (rest : List Facility)
    (h : rowsFor db k = r :: rest) : r ∈ db ∧ r.kennzahl = k := by
  have hr : r ∈ rowsFor db k := by simp [h]
  unfold rowsFor at hr
  have h1 := List.mem_of_mem_filter hr
  have h2 := List.of_mem_filter hr
  exact ⟨h1, by simpa using h2⟩

theorem updateInc_spec (db : DB) (k : Int)
    (hinc : ∀ r ∈ db, r.kennzahl = k → preIncrementable r) :
    ∃ db2, updateInc db k = .ok db2 ∧
      List.Forall₂ (fun old new =>
        (old.kennzahl = k → ∃ p, to_int old.pre_registrations = some p ∧
          new = { old with pre_registrations := .vint (p + 1) }) ∧
        (old.kennzahl ≠ k → new = old)) db db2 := by
  induction db with
  | nil => exact ⟨[], rfl, List.Forall₂.nil⟩
  | cons r rest ih =>
    obtain ⟨db2, hup, hrel⟩ := ih (fun x hx hk => hinc x (List.mem_cons_of_mem r hx) hk)
    by_cases hk : r.kennzahl = k
    · rcases hinc r (List.mem_cons_self r rest) hk with hnull | ⟨n, hn⟩
      · refine ⟨{ r with pre_registrations := .vint 1 } :: db2, ?_, ?_⟩
        · simp only [updateInc, hk, if_pos, hnull, coalesceInc, hup]
          rfl
        · refine List.Forall₂.cons ⟨fun _ => ⟨0, ?_, ?_⟩, fun h => absurd hk h⟩ hrel
          · rw [hnull]; rfl
          · norm_num
      · refine ⟨{ r with pre_registrations := .vint (n + 1) } :: db2, ?_, ?_⟩
        · simp only [updateInc, hk, if_pos, hn, coalesceInc, hup]
          rfl
        · refine List.Forall₂.cons ⟨fun _ => ⟨n, ?_, rfl⟩, fun h => absurd hk h⟩ hrel
          rw [hn]; rfl
    · refine ⟨r :: db2, ?_, ?_⟩
      · simp only [updateInc, hk, if_neg, hup]
        rfl
      · exact List.Forall₂.cons ⟨fun h => absurd h hk, fun _ => rfl⟩ hrel

/-- C2: `get_free_places` returns absent exactly when no facility with the
given id exists; otherwise it returns `max(capacity_estimate -
current_occupancy - pre_registrations, 0)` computed from that facility's
row, with `NULL` and blank-text ledger fields reading as 0; the returned
count is never negative. -/
theorem get_free_places_spec (db : DB) (k : Int) :
    ((∀ r ∈ db, r.kennzahl ≠ k) → get_free_places db k = .ok none) ∧
    (∀ r rest cap occ pre, rowsFor db k = r :: rest →
      to_int r.capacity_estimate = some cap →
      to_int r.current_occupancy = some occ →
      to_int r.pre_registrations = some pre →
      get_free_places db k = .ok (some (max (cap - occ - pre) 0))) ∧
    (∀ f, get_free_places db k = .ok (some f) → 0 ≤ f) ∧
    (to_int .vnull = some 0) ∧
    (∀ s, pyStripL s.toList = [] → to_int (.vstr s) = some 0) := by
  refine ⟨?_, ?_, ?_, rfl, ?_⟩
  · intro h
    rw [get_free_places, rowsFor_eq_nil db k h]
  · intro r rest cap occ pre hrows hc ho hp
    simp [get_free_places, hrows, hc, ho, hp]
  · intro f h
    rw [get_free_places] at h
    split at h
    · simp at h
    · split at h
      · rename_i cap occ pre hc ho hp
        simp only [Except.ok.injEq, Option.some.injEq] at h
        rw [← h]
        exact le_max_right _ _
      · simp at h
  · intro s hs
    simp only [to_int, hs]
    rfl

theorem get_free_places_spec_witness :
    get_free_places gfpW 4010 = .ok (some 5) ∧ get_free_places gfpW 999 = .ok none := by
  refine ⟨((get_free_places_spec gfpW 4010).2.1 _ [] 5 0 0 rfl rfl rfl rfl).trans (by norm_num), ?_⟩
  exact (get_free_places_spec gfpW 999).1 (by decide)

/-- C1: `reserve_place` returns `true` exactly when the facility is known
and its `free_places` at the moment of the call is positive; on `true` the
`pre_registrations` of the matching row(s) is incremented by exactly 1 (as
read through `to_int`) with every other field untouched, and on `false`
the ledger is not mutated at all. -/
theorem reserve_place_spec (db : DB) (k : Int) (pn pe cn : String)
    (hread : ∀ r ∈ db, r.kennzahl = k → ledgerReadable r)
    (hinc : ∀ r ∈ db, r.kennzahl = k → preIncrementable r) :
    ∃ b db2, reserve_place db k pn pe cn = .ok (b, db2) ∧
      (b = true ↔ ∃ f, get_free_places db k = .ok (some f) ∧ 0 < f) ∧
      (b = true → ∃ r ∈ db, r.kennzahl = k) ∧
      (b = false → db2 = db) ∧
      (b = true → List.Forall₂ (fun old new =>
        (old.kennzahl = k → ∃ p, to_int old.pre_registrations = some p ∧
          new = { old with pre_registrations := .vint (p + 1) }) ∧
        (old.kennzahl ≠ k → new = old)) db db2) := by
  have hnoerr : ∀ e, get_free_places db k ≠ .error e := by
    intro e h
    rw [get_free_places] at h
    split at h
    · simp at h
    · rename_i r rest hr
      obtain ⟨hmem, hk⟩ := mem_of_rowsFor_cons db k r rest hr
      obtain ⟨h1, h2, h3⟩ := hread r hmem hk
      split at h
      · simp at h
      · rename_i habs
        obtain ⟨cap, hcap⟩ := Option.isSome_iff_exists.1 h1
        obtain ⟨occ, hocc⟩ := Option.isSome_iff_exists.1 h2
        obtain ⟨pre, hpre⟩ := Option.isSome_iff_exists.1 h3
        exact habs cap occ pre hcap hocc hpre
  cases hfree : get_free_places db k with
  | error e => exact absurd hfree (hnoerr e)
  | ok fo =>
    cases fo with
    | none =>
      refine ⟨false, db, ?_, ?_, ?_, fun _ => rfl, ?_⟩
      · simp [reserve_place, reserve_read, hfree, reserve_commit, Bind.bind, Except.bind]
      · simp [hfree]
      · simp
      · simp
    | some f =>
      by_cases hf : f ≤ 0
      · refine ⟨false, db, ?_, ?_, ?_, fun _ => rfl, ?_⟩
        · simp [reserve_place, reserve_read, hfree, reserve_commit, hf, Bind.bind, Except.bind]
        · constructor
          · intro hb; exact absurd hb (by simp)
          · rintro ⟨f0, hf0, hpos⟩
            simp only [Except.ok.injEq, Option.some.injEq] at hf0
            omega
        · intro hb; exact absurd hb (by simp)
        · simp
      · obtain ⟨db2, hup, hrel⟩ := updateInc_spec db k hinc
        refine ⟨true, db2, ?_, ?_, ?_, by simp, fun _ => hrel⟩
        · simp [reserve_place, reserve_read, hfree, reserve_commit, hf, hup,
            Bind.bind, Except.bind]
        · simp only [true_iff]
          exact ⟨f, rfl, by omega⟩
        · intro _
          rw [get_free_places] at hfree
          split at hfree
          · simp at hfree
          · rename_i r rest hr
            obtain ⟨hmem, hk⟩ := mem_of_rowsFor_cons db k r rest hr
            exact ⟨r, hmem, hk⟩

theorem reserve_place_spec_witness :
    (∀ r ∈ reserveW, r.kennzahl = 401 → ledgerReadable r) ∧
    (∀ r ∈ reserveW, r.kennzahl = 401 → preIncrementable r) ∧
    (∃ b db2, reserve_place reserveW 401 "Max" "max@example.com" "Emma" = .ok (b, db2) ∧
      (b = true ↔ ∃ f, get_free_places reserveW 401 = .ok (some f) ∧ 0 < f) ∧
      (b = true → ∃ r ∈ reserveW, r.kennzahl = 401) ∧
      (b = false → db2 = reserveW) ∧
      (b = true → List.Forall₂ (fun old new =>
        (old.kennzahl = 401 → ∃ p, to_int old.pre_registrations = some p ∧
          new = { old with pre_registrations := .vint (p + 1) }) ∧
        (old.kennzahl ≠ 401 → new = old)) reserveW db2)) := by
  have h1 : ∀ r ∈ reserveW, r.kennzahl = 401 → ledgerReadable r := by
    intro r hr hk
    simp only [reserveW, List.mem_cons, List.not_mem_nil, or_false] at hr
    rcases hr with h | h
    · rw [h]; exact ⟨rfl, rfl, rfl⟩
    · rw [h]; exact ⟨rfl, rfl, rfl⟩
  have h2 : ∀ r ∈ reserveW, r.kennzahl = 401 → preIncrementable r := by
    intro r hr hk
    simp only [reserveW, List.mem_cons, List.not_mem_nil, or_false] at hr
    rcases hr with h | h
    · rw [h]; exact Or.inl rfl
    · rw [h]; exact Or.inr ⟨0, rfl⟩
  exact ⟨h1, h2, reserve_place_spec reserveW 401 "Max" "max@example.com" "Emma" h1 h2⟩

/-- C3: `reserve_place` is a check-then-increment across two separate store
round trips (`reserve_read` then `reserve_commit`), so the interleaving in
which two concurrent calls both perform their read before either performs
its update lets BOTH return `true` against a facility with exactly one free
place, and `pre_registrations` rises by 2: the spec's concurrency property
does not hold for this code. -/
theorem reserve_race_both_succeed :
    get_free_places raceDb 401 = .ok (some 1) ∧
    reserve_read raceDb 401 = .ok (some 1) ∧
    reserve_commit raceDb 401 (some 1) = .ok (true, raceDb1) ∧
    reserve_commit raceDb1 401 (some 1) = .ok (true, raceDb2) ∧
    get_free_places raceDb2 401 = .ok (some 0) ∧
    raceDb2.map (fun r => r.pre_registrations) = [.vint 2] := by
  exact ⟨rfl, rfl, rfl, rfl, rfl, rfl⟩

/-- C6 counterexample: with the empty string as city — which matches no
facility's city — `reset_pre_registrations` nevertheless mutates facilities
in other cities (Python's `if city:` treats `""` like `None` and resets
everything), contradicting the claim's frame condition for every city
string. -/
theorem reset_empty_city_mutates_other_cities :
    (∀ r ∈ resetDbW, sqlLower r.ort ≠ sqlLower "") ∧
    reset_pre_registrations resetDbW (some "") ≠ resetDbW := by
  constructor
  · intro r hr
    simp only [resetDbW, List.mem_singleton] at hr
    subst hr
    decide
  · intro h
    have := congrArg (List.map (fun r => r.pre_registrations)) h
    simp only [resetDbW, reset_pre_registrations] at this
    exact absurd this (by decide)

/-- C6 (amended): for every NON-EMPTY city string, resetting leaves
`pre_registrations = 0` on exactly the rows whose city matches
case-insensitively and leaves every other row completely unchanged; with no
city every row's `pre_registrations` becomes 0. -/
theorem reset_pre_registrations_spec (db : DB) (city : String) (hc : city ≠ "") :
    List.Forall₂ (fun old new =>
      (sqlLower old.ort = sqlLower city → new = setPreZero old) ∧
      (sqlLower old.ort ≠ sqlLower city → new = old))
      db (reset_pre_registrations db (some city)) ∧
    (∀ r ∈ reset_pre_registrations db none, r.pre_registrations = .vint 0) := by
  constructor
  · have ht : truthyCity (some city) = true := by
      simp [truthyCity, hc]
    rw [reset_pre_registrations, if_pos ht]
    simp only [Option.getD_some]
    induction db with
    | nil => exact List.Forall₂.nil
    | cons r rest ih =>
      refine List.Forall₂.cons ⟨fun hm => ?_, fun hm => ?_⟩ ih
      · show (if sqlLower r.ort = sqlLower city then setPreZero r else r) = setPreZero r
        rw [if_pos hm]
      · show (if sqlLower r.ort = sqlLower city then setPreZero r else r) = r
        rw [if_neg hm]
  · intro r hr
    rw [reset_pre_registrations] at hr
    have ht : truthyCity (none : Option String) = false := rfl
    rw [ht] at hr
    simp only [Bool.false_eq_true, if_false] at hr
    obtain ⟨r0, _, hr0⟩ := List.mem_map.1 hr
    rw [← hr0]
    rfl

theorem reset_pre_registrations_spec_witness :
    ("Linz" : String) ≠ "" ∧
    (List.Forall₂ (fun old new =>
      (sqlLower old.ort = sqlLower "Linz" → new = setPreZero old) ∧
      (sqlLower old.ort ≠ sqlLower "Linz" → new = old))
      resetDbW (reset_pre_registrations resetDbW (some "Linz")) ∧
    (∀ r ∈ reset_pre_registrations resetDbW none, r.pre_registrations = .vint 0)) :=
  ⟨by decide, reset_pre_registrations_spec resetDbW "Linz" (by decide)⟩

/-- C5 counterexample: (a) the query "40 20" is not purely numeric, so the
claim prescribes the city match (which succeeds by containment), but the
code removes blanks before its digit test and therefore runs the
postal-code branch and finds nothing; (b) the query "L_nz" reaches the city
branch as an `ILIKE` pattern, so `_` acts as a wildcard and matches
"Linz", while the claim's literal-substring reading matches nothing. -/
theorem get_facilities_by_query_ne_claim :
    get_facilities_by_query c5dbA "40 20" = [] ∧
    spec_find_facilities c5dbA "40 20" ≠ [] ∧
    get_facilities_by_query c5dbB "L_nz" ≠ [] ∧
    spec_find_facilities c5dbB "L_nz" = [] := by
  exact ⟨by decide, by decide, by decide, by decide⟩

/-- C5 (amended): a blank query returns `[]`; for a non-blank query the
result consists of exactly the contact-cleaned rows matching the code's
filter — postal-code equality when the query is digits-only after removing
blanks, otherwise case-insensitive city equality or an `ILIKE`
`%query%` pattern match (with `%`/`_`/`\` as wildcards) — and the result is
ordered by city then name. -/
theorem get_facilities_by_query_props (db : DB) (query : String) :
    (pyStrip query = "" → get_facilities_by_query db query = []) ∧
    (pyStrip query ≠ "" →
      ∀ r, r ∈ get_facilities_by_query db query ↔
        ∃ r0, r0 ∈ db ∧ codeMatches (pyStrip query) r0 = true ∧ r = cleanRow r0) ∧
    List.Pairwise RowLe (get_facilities_by_query db query) := by
  refine ⟨?_, ?_, ?_⟩
  · intro h
    simp [get_facilities_by_query, h]
  · intro h r
    simp only [get_facilities_by_query]
    rw [if_neg h]
    constructor
    · intro hr
      obtain ⟨a, ha, hae⟩ := List.mem_map.1 hr
      have ha2 : a ∈ db.filter (codeMatches (pyStrip query)) :=
        (List.perm_insertionSort RowLe _).subset ha
      exact ⟨a, List.mem_of_mem_filter ha2, by simpa using List.of_mem_filter ha2, hae.symm⟩
    · rintro ⟨r0, hmem, hmatch, he⟩
      refine List.mem_map.2 ⟨r0, ?_, he.symm⟩
      exact (List.perm_insertionSort RowLe _).mem_iff.2
        (List.mem_filter.2 ⟨hmem, by simpa using hmatch⟩)
  · by_cases h : pyStrip query = ""
    · simp [get_facilities_by_query, h]
    · simp only [get_facilities_by_query]
      rw [if_neg h]
      rw [List.pairwise_map]
      exact (List.sorted_insertionSort RowLe _).imp (fun hab => hab)

theorem get_facilities_by_query_props_witness :
    (pyStrip "Linz" ≠ "") ∧
    (cleanRow (c5dbB.get ⟨0, by decide⟩) ∈ get_facilities_by_query c5dbB "Linz") := by
  refine ⟨by decide, ?_⟩
  refine ((get_facilities_by_query_props c5dbB "Linz").2.1 (by decide) _).2 ?_
  exact ⟨c5dbB.get ⟨0, by decide⟩, by decide, by decide, rfl⟩

/-- C10: calling `reset_pre_registrations` with the empty string behaves
exactly like calling it with no city: every facility's `pre_registrations`
is set to 0 (Python's `if city:` is false for `""`), rather than matching
only facilities whose city is the empty string. -/
theorem reset_empty_string_resets_all (db : DB) :
    reset_pre_registrations db (some "") = reset_pre_registrations db none ∧
    reset_pre_registrations db (some "") = db.map setPreZero := by
  constructor <;> rfl

/-! ## Properties of the router's parsing -/

theorem dropWhile_head_false {α : Type} (q : α → Bool) :
    ∀ (l : List α) (c : α) (t : List α), l.dropWhile q = c :: t → q c = false := by
  intro l
  induction l with
  | nil => intro c t h; simp at h
  | cons a as ih =>
    intro c t h
    rw [List.dropWhile_cons] at h
    split at h
    · exact ih c t h
    · rename_i hq
      injection h with h1 h2
      rw [← h1]
      simpa using hq

theorem braceExtract_head (cs : List Char) (sub : List Char)
    (h : braceExtract cs = some sub) : ∃ t, sub = '\x7b' :: t := by
  rw [braceExtract] at h
  split at h
  · simp at h
  · rename_i c t hd
    have hc : (!(c = '\x7b' : Bool)) = false := dropWhile_head_false _ cs c t hd
    have hc2 : c = '\x7b' := by simpa using hc
    split at h
    · simp at h
    · simp only [Option.some.injEq] at h
      exact ⟨_, by rw [← h, hc2]⟩

theorem parseObj_shape : ∀ (n : Nat) (cs : List Char) (v : Json) (rest : List Char),
    parseObj n cs = some (v, rest) → ∃ kvs, v = .jobj kvs := by
  intro n cs v rest h
  cases n with
  | zero => simp [parseObj] at h
  | succ n =>
    rw [parseObj] at h
    split at h
    · simp only [Option.some.injEq, Prod.mk.injEq] at h
      exact ⟨[], h.1.symm⟩
    · split at h
      · simp only [Option.some.injEq, Prod.mk.injEq] at h
        rename_i kvs rest2 _
        exact ⟨kvs, h.1.symm⟩
      · simp at h

theorem parseValue_brace_shape :
    ∀ (n : Nat) (t : List Char) (v : Json) (rest : List Char),
    parseValue n ('\x7b' :: t) = some (v, rest) → ∃ kvs, v = .jobj kvs := by
  intro n t v rest h
  cases n with
  | zero => simp [parseValue] at h
  | succ n =>
    have he : parseValue (n + 1) ('\x7b' :: t) = parseObj n t := rfl
    rw [he] at h
    exact parseObj_shape n t v rest h

theorem json_loads_brace_shape (t : List Char) (data : Json)
    (h : json_loads (('\x7b' :: t).asString) = some data) : ∃ kvs, data = .jobj kvs := by
  rw [json_loads, List.toList_asString] at h
  split at h
  · simp at h
  · rename_i v rest hpv
    split at h
    · simp only [Option.some.injEq] at h
      exact h ▸ parseValue_brace_shape _ t v rest hpv
    · simp at h

theorem decodeFinalize_obj (kvs : List (String × Json)) :
    ∃ kvs2, decodeFinalize (.jobj kvs) = .ok (.jobj kvs2) ∧
      objHasKey kvs2 "action" = true := by
  rw [decodeFinalize]
  by_cases hk : objHasKey kvs "action"
  · exact ⟨kvs, by rw [if_pos hk], hk⟩
  · refine ⟨kvs ++ [("action", .jstr "none")], by rw [if_neg hk], ?_⟩
    simp [objHasKey, List.any_append]

/-- C4 counterexample: (a) the oracle output "5" is valid JSON, so no
extraction is attempted, and the `"action" not in data` test on the integer
raises `TypeError` — the router CAN raise on a parsing path; (b) on prose
containing two brace groups the code extracts greedily from the first `{`
to the LAST `}`, which is not valid JSON, and falls back to no-action,
whereas parsing the first *balanced* brace substring would give the
list-facilities/Wels decision. -/
theorem routerParse_ne_claim :
    routerParse "5" = .error () ∧
    routerParse greedyRaw = .ok noActionDecision ∧
    (Except.ok noActionDecision : Except Unit Json) ≠ .ok welsDecision := by
  refine ⟨rfl, rfl, ?_⟩
  intro h
  simp [noActionDecision, welsDecision] at h

/-- C4 (amended): the router's parsing of the oracle output is total on the
invalid-JSON path and defaults safely there: if `json.loads` fails it
extracts the substring from the first `\x7b` to the last `\x7d` (greedy, not
first-balanced) and parses that; if there is no such substring, or the
retry fails, the no-action decision is returned and no exception occurs;
a successful retry always yields an object and is finalized with an
`action` key.  When the whole output is valid JSON, an object is finalized
the same way, but a non-object value makes the router raise. -/
theorem routerParse_spec (raw : String) :
    (∀ kvs, json_loads raw = some (.jobj kvs) →
      ∃ kvs2, routerParse raw = .ok (.jobj kvs2) ∧ objHasKey kvs2 "action" = true) ∧
    (json_loads raw = none → routerParse raw ≠ .error ()) ∧
    (json_loads raw = none → braceExtract raw.toList = none →
      routerParse raw = .ok noActionDecision) ∧
    (∀ sub, json_loads raw = none → braceExtract raw.toList = some sub →
      json_loads sub.asString = none → routerParse raw = .ok noActionDecision) ∧
    (∀ sub data, json_loads raw = none → braceExtract raw.toList = some sub →
      json_loads sub.asString = some data →
      routerParse raw = decodeFinalize data ∧
      ∃ kvs2, routerParse raw = .ok (.jobj kvs2) ∧ objHasKey kvs2 "action" = true) := by
  refine ⟨?_, ?_, ?_, ?_, ?_⟩
  · intro kvs h
    rw [routerParse, h]
    exact decodeFinalize_obj kvs
  · intro hn
    rw [routerParse]
    simp only [hn]
    cases hb : braceExtract raw.toList with
    | none => simp [hb]
    | some sub =>
      simp only [hb]
      cases hjs : json_loads sub.asString with
      | none => simp [hjs]
      | some data =>
        simp only [hjs]
        obtain ⟨t, rfl⟩ := braceExtract_head raw.toList sub hb
        obtain ⟨kvs, rfl⟩ := json_loads_brace_shape t data hjs
        obtain ⟨kvs2, hok, -⟩ := decodeFinalize_obj kvs
        rw [hok]
        simp
  · intro hn hb
    rw [routerParse]
    simp only [hn, hb]
  · intro sub hn hb hjs
    rw [routerParse]
    simp only [hn, hb, hjs]
  · intro sub data hn hb hjs
    constructor
    · rw [routerParse]
      simp only [hn, hb, hjs]
    · obtain ⟨t, rfl⟩ := braceExtract_head raw.toList sub hb
      obtain ⟨kvs, rfl⟩ := json_loads_brace_shape t data hjs
      obtain ⟨kvs2, hok, hkey⟩ := decodeFinalize_obj kvs
      rw [routerParse]
      simp only [hn, hb, hjs]
      exact ⟨kvs2, hok, hkey⟩

theorem routerParse_spec_witness :
    json_loads welsRaw = none ∧
    braceExtract welsRaw.toList = some welsSub.toList ∧
    json_loads welsSub = some welsDecision ∧
    routerParse welsRaw = .ok welsDecision := by
  refine ⟨rfl, rfl, rfl, ?_⟩
  have h := (routerParse_spec welsRaw).2.2.2.2 welsSub.toList welsDecision rfl
    (by rfl) (by rw [String.asString_toList]; rfl)
  exact h.1.trans (by rfl)

/-- C8 counterexample: a routing decision whose `kennzahl` slot holds a
string `int(..)` cannot convert makes the executor raise `ValueError`
(`kennzahl_int = int(kennzahl)` is outside any `try`), failing the turn —
the claim's "or invalid" half does not hold. -/
theorem run_agent_sql_invalid_id_raises :
    run_agent_sql [] invalidIdDec = .error () ∧
    run_agent_sql reserveW invalidIdDec = .error () := ⟨rfl, rfl⟩

/-- C8 (amended): a facility id that converts to an integer but is absent
from the store is handled locally: the executor substitutes the fallback
label "Einrichtung mit Kennzahl \<id\>" in the rendered fragment, completes
without raising and leaves the store untouched (for check-free-places and
for reserve-place alike); but a `kennzahl` slot value that `int(..)` cannot
convert raises out of the executor and fails the turn. -/
theorem run_agent_sql_unknown_id_spec (db : DB) (dec : List (String × Json)) :
    (∀ j k, dictGet dec "action" (.jstr "none") = .jstr "check_free_places" →
      dictGet dec "kennzahl" .jnull = j → pyIntOfJson j = .ok k →
      (∀ r ∈ db, r.kennzahl ≠ k) →
      run_agent_sql db dec = .ok ([.noCapacityInfo (fallbackLabel k) k], db)) ∧
    (∀ j k, dictGet dec "action" (.jstr "none") = .jstr "reserve_place" →
      dictGet dec "kennzahl" .jnull = j → pyIntOfJson j = .ok k →
      jsonTruthy (dictGet dec "parent_name" .jnull) = true →
      jsonTruthy (dictGet dec "parent_email" .jnull) = true →
      jsonTruthy (dictGet dec "child_name" .jnull) = true →
      (∀ r ∈ db, r.kennzahl ≠ k) →
      run_agent_sql db dec = .ok ([.reservedFail (fallbackLabel k) k], db)) ∧
    (∀ j, dictGet dec "action" (.jstr "none") = .jstr "check_free_places" →
      dictGet dec "kennzahl" .jnull = j → jsonIsNull j = false →
      pyIntOfJson j = .error () →
      run_agent_sql db dec = .error ()) := by
  refine ⟨?_, ?_, ?_⟩
  · intro j k ha hj hk hunk
    have hnn : jsonIsNull j = false := by
      cases j <;> first | rfl | (exfalso; simp [pyIntOfJson] at hk)
    have hrows := rowsFor_eq_nil db k hunk
    have hfree : get_free_places db k = .ok none := by rw [get_free_places, hrows]
    have hfac : get_facility_by_kennzahl db k = none := by
      rw [get_facility_by_kennzahl, hrows]; rfl
    rw [run_agent_sql]
    simp [ha, hj, hnn, hk, hfree, hfac, resolveName, jsonIsStr,
      Bind.bind, Except.bind]
  · intro j k ha hj hk hpn hpe hcn hunk
    have hnn : jsonIsNull j = false := by
      cases j <;> first | rfl | (exfalso; simp [pyIntOfJson] at hk)
    have hrows := rowsFor_eq_nil db k hunk
    have hfree : get_free_places db k = .ok none := by rw [get_free_places, hrows]
    have hfac : get_facility_by_kennzahl db k = none := by
      rw [get_facility_by_kennzahl, hrows]; rfl
    have hres : reserve_place db k (dictGet dec "parent_name" Json.jnull)
        (dictGet dec "parent_email" Json.jnull) (dictGet dec "child_name" Json.jnull) =
        .ok (false, db) := by
      simp [reserve_place, reserve_read, hfree, reserve_commit, Bind.bind, Except.bind]
    rw [run_agent_sql]
    simp [ha, hj, hnn, hk, hres, hpn, hpe, hcn, hfac, resolveName, jsonIsStr,
      Bind.bind, Except.bind]
  · intro j ha hj hnn hk
    rw [run_agent_sql]
    simp [ha, hj, hnn, hk, jsonIsStr, Bind.bind, Except.bind]

theorem run_agent_sql_unknown_id_spec_witness :
    (∀ r ∈ reserveW, r.kennzahl ≠ (999 : Int)) ∧
    run_agent_sql reserveW unknownIdDec =
      .ok ([.noCapacityInfo (fallbackLabel 999) 999], reserveW) := by
  have hu : ∀ r ∈ reserveW, r.kennzahl ≠ (999 : Int) := by decide
  exact ⟨hu, (run_agent_sql_unknown_id_spec reserveW unknownIdDec).1
    (.jnum "999") 999 rfl rfl rfl hu⟩

/-! ## Properties of the citation cleanup -/

theorem subFileciteF_id : ∀ (n : Nat) (cs : List Char),
    hasFilecite cs = false → subFileciteF n cs = cs := by
  intro n cs
  induction n, cs using subFileciteF.induct with
  | case1 cs => intro _; rfl
  | case2 n => intro _; rfl
  | case3 n c rest hat ih =>
    intro h
    rw [hasFilecite] at h
    simp [hat] at h
  | case4 n c rest hat ih =>
    intro h
    rw [hasFilecite] at h
    simp only [Bool.or_eq_false_iff] at h
    rw [subFileciteF, if_neg (by simp [hat]), ih h.2]

theorem subFilecite_id (cs : List Char) (h : hasFilecite cs = false) :
    subFilecite cs = cs :=
  subFileciteF_id _ cs h

theorem subTurnFileF_id : ∀ (n : Nat) (cs : List Char),
    hasTurnFile cs = false → subTurnFileF n cs = cs := by
  intro n cs
  induction n, cs using subTurnFileF.induct with
  | case1 cs => intro _; rfl
  | case2 n => intro _; rfl
  | case3 n c rest len hat ih =>
    intro h
    rw [hasTurnFile] at h
    simp [hat] at h
  | case4 n c rest hat ih =>
    intro h
    rw [hasTurnFile] at h
    simp only [Bool.or_eq_false_iff] at h
    rw [subTurnFileF]
    rw [show turnMatchLen (c :: rest) = none from Option.not_isSome_iff_eq_none.1 (by simp [h.1])]
    rw [ih h.2]

theorem subTurnFile_id (cs : List Char) (h : hasTurnFile cs = false) :
    subTurnFile cs = cs :=
  subTurnFileF_id _ cs h

theorem collapseSpaces_head : ∀ (c : Char) (rest : List Char),
    ∃ t, collapseSpaces (c :: rest) = c :: t := by
  intro c rest
  induction rest generalizing c with
  | nil =>
    refine ⟨[], ?_⟩
    rw [collapseSpaces, if_neg (by simp [headIsSpace])]
    rfl
  | cons d rest2 ih =>
    by_cases h : c = ' ' ∧ d = ' '
    · obtain ⟨rfl, rfl⟩ := h
      rw [collapseSpaces, if_pos (by simp [headIsSpace])]
      exact ih ' '
    · refine ⟨collapseSpaces (d :: rest2), ?_⟩
      rw [collapseSpaces, if_neg ?_]
      simp only [headIsSpace, Bool.and_eq_true, decide_eq_true_eq]
      exact fun hc => h ⟨hc.1, hc.2⟩

theorem collapseSpaces_id : ∀ (cs : List Char),
    List.Chain' NoTwoSpaces cs → collapseSpaces cs = cs := by
  intro cs
  induction cs with
  | nil => intro _; rfl
  | cons c rest ih =>
    intro h
    have ht := List.Chain'.tail h
    rw [collapseSpaces, if_neg ?_, ih ht]
    cases rest with
    | nil => simp [headIsSpace]
    | cons d rest2 =>
      have hp : NoTwoSpaces c d := (List.chain'_cons.1 h).1
      simp only [headIsSpace, Bool.and_eq_true, decide_eq_true_eq]
      exact fun hc => hp ⟨hc.1, hc.2⟩

theorem collapseSpaces_chain : ∀ (cs : List Char),
    List.Chain' NoTwoSpaces (collapseSpaces cs) := by
  intro cs
  induction cs with
  | nil => exact List.chain'_nil
  | cons c rest ih =>
    by_cases h : c = ' ' && headIsSpace rest
    · rw [collapseSpaces, if_pos h]
      exact ih
    · rw [collapseSpaces, if_neg h]
      refine List.chain'_cons'.2 ⟨?_, ih⟩
      intro b hb
      cases rest with
      | nil => simp [collapseSpaces] at hb
      | cons d rest2 =>
        obtain ⟨t, ht⟩ := collapseSpaces_head d rest2
        rw [ht] at hb
        simp only [List.head?_cons, Option.mem_def, Option.some.injEq] at hb
        subst hb
        simp only [headIsSpace, Bool.and_eq_true, decide_eq_true_eq] at h
        exact fun hc => h ⟨hc.1, hc.2⟩

theorem collapseSpaces_subset : ∀ (cs : List Char) (c : Char),
    c ∈ collapseSpaces cs → c ∈ cs := by
  intro cs
  induction cs with
  | nil => intro c h; simp [collapseSpaces] at h
  | cons a rest ih =>
    intro c h
    by_cases hc : a = ' ' && headIsSpace rest
    · rw [collapseSpaces, if_pos hc] at h
      exact List.mem_cons_of_mem a (ih c h)
    · rw [collapseSpaces, if_neg hc] at h
      rcases List.mem_cons.1 h with h | h
      · exact h ▸ List.mem_cons_self a rest
      · exact List.mem_cons_of_mem a (ih c h)

theorem splitlines_infix : ∀ (n : Nat) (y acc l : List Char),
    l ∈ splitlinesAuxF n y acc → l <:+: acc.reverse ++ y := by
  intro n y acc
  induction n, y, acc using splitlinesAuxF.induct with
  | case1 y acc => intro l hl; simp [splitlinesAuxF] at hl
  | case2 n acc hemp => intro l hl; rw [splitlinesAuxF, if_pos hemp] at hl; simp at hl
  | case3 n acc hemp =>
    intro l hl
    rw [splitlinesAuxF, if_neg hemp] at hl
    simp only [List.mem_singleton] at hl
    exact ⟨[], [], by simp [hl]⟩
  | case4 n c rest acc ht hcr ih =>
    intro l hl
    rw [splitlinesAuxF, if_pos ht, if_pos hcr] at hl
    rcases List.mem_cons.1 hl with rfl | hl
    · exact ⟨[], c :: rest, by simp⟩
    · obtain ⟨s, t, heq⟩ := ih l hl
      simp only [List.reverse_nil, List.nil_append] at heq
      cases rest with
      | nil => simp [headIsNl] at hcr
      | cons d rest2 =>
        have hd : d = '\n' := by
          simp only [headIsNl, Bool.and_eq_true, decide_eq_true_eq] at hcr
          exact hcr.2
        refine ⟨acc.reverse ++ c :: d :: s, t, ?_⟩
        simp only [List.tail_cons] at heq
        rw [← heq]
        simp
  | case5 n c rest acc ht hcr ih =>
    intro l hl
    rw [splitlinesAuxF, if_pos ht, if_neg hcr] at hl
    rcases List.mem_cons.1 hl with rfl | hl
    · exact ⟨[], c :: rest, by simp⟩
    · obtain ⟨s, t, heq⟩ := ih l hl
      simp only [List.reverse_nil, List.nil_append] at heq
      refine ⟨acc.reverse ++ c :: s, t, ?_⟩
      rw [← heq]
      simp
  | case6 n c rest acc ht ih =>
    intro l hl
    rw [splitlinesAuxF, if_neg ht] at hl
    obtain ⟨s, t, heq⟩ := ih l hl
    refine ⟨s, t, ?_⟩
    rw [List.reverse_cons] at heq
    rw [heq]
    simp

theorem splitlines_noterm : ∀ (n : Nat) (y acc : List Char),
    (∀ c ∈ acc, isLineTerm c = false) →
    ∀ l ∈ splitlinesAuxF n y acc, ∀ c ∈ l, isLineTerm c = false := by
  intro n y acc
  induction n, y, acc using splitlinesAuxF.induct with
  | case1 y acc => intro _ l hl; simp [splitlinesAuxF] at hl
  | case2 n acc hemp => intro _ l hl; rw [splitlinesAuxF, if_pos hemp] at hl; simp at hl
  | case3 n acc hemp =>
    intro hacc l hl
    rw [splitlinesAuxF, if_neg hemp] at hl
    simp only [List.mem_singleton] at hl
    subst hl
    intro c hc
    exact hacc c (List.mem_reverse.1 hc)
  | case4 n c rest acc ht hcr ih =>
    intro hacc l hl
    rw [splitlinesAuxF, if_pos ht, if_pos hcr] at hl
    rcases List.mem_cons.1 hl with rfl | hl
    · intro x hx; exact hacc x (List.mem_reverse.1 hx)
    · exact ih (by intro x hx; simp at hx) l hl
  | case5 n c rest acc ht hcr ih =>
    intro hacc l hl
    rw [splitlinesAuxF, if_pos ht, if_neg hcr] at hl
    rcases List.mem_cons.1 hl with rfl | hl
    · intro x hx; exact hacc x (List.mem_reverse.1 hx)
    · exact ih (by intro x hx; simp at hx) l hl
  | case6 n c rest acc ht ih =>
    intro hacc l hl
    rw [splitlinesAuxF, if_neg ht] at hl
    refine ih ?_ l hl
    intro x hx
    rcases List.mem_cons.1 hx with rfl | hx
    · simpa using ht
    · exact hacc x hx

theorem splitlines_ne_nil : ∀ (n : Nat) (y acc : List Char),
    (y ≠ [] ∨ acc ≠ []) → y.length < n → splitlinesAuxF n y acc ≠ [] := by
  intro n y acc
  induction n, y, acc using splitlinesAuxF.induct with
  | case1 y acc => intro _ hlen; omega
  | case2 n acc hemp =>
    intro h _
    rcases h with h | h
    · exact absurd rfl h
    · exact absurd (List.isEmpty_iff.1 hemp) h
  | case3 n acc hemp => intro _ _; rw [splitlinesAuxF, if_neg hemp]; simp
  | case4 n c rest acc ht hcr ih => intro _ _; rw [splitlinesAuxF, if_pos ht, if_pos hcr]; simp
  | case5 n c rest acc ht hcr ih => intro _ _; rw [splitlinesAuxF, if_pos ht, if_neg hcr]; simp
  | case6 n c rest acc ht ih =>
    intro _ hlen
    rw [splitlinesAuxF, if_neg ht]
    refine ih (Or.inr (by simp)) ?_
    simp only [List.length_cons] at hlen
    omega

theorem rstripL_getLast (l : List Char) (c : Char)
    (h : (rstripL l).getLast? = some c) : pyIsSpace c = false := by
  rw [rstripL, List.getLast?_reverse] at h
  cases hd : l.reverse.dropWhile pyIsSpace with
  | nil => rw [hd] at h; simp at h
  | cons a t =>
    rw [hd] at h
    simp only [List.head?_cons, Option.some.injEq] at h
    exact h ▸ dropWhile_head_false pyIsSpace l.reverse a t hd

theorem rstripL_eq_self (l : List Char)
    (h : ∀ c, l.getLast? = some c → pyIsSpace c = false) : rstripL l = l := by
  rw [rstripL]
  cases hr : l.reverse with
  | nil =>
    rw [List.reverse_eq_nil_iff] at hr
    subst hr
    rfl
  | cons a t =>
    have ha : l.getLast? = some a := by rw [← List.head?_reverse, hr]; rfl
    rw [List.dropWhile_cons, if_neg (by simp [h a ha])]
    rw [← hr, List.reverse_reverse]

theorem rstripL_append_exists (l : List Char) :
    ∃ t, rstripL l ++ t = l ∧ ∀ c ∈ t, pyIsSpace c = true := by
  refine ⟨(l.reverse.takeWhile pyIsSpace).reverse, ?_, ?_⟩
  · rw [rstripL, ← List.reverse_append, List.takeWhile_append_dropWhile, List.reverse_reverse]
  · intro c hc
    exact List.mem_takeWhile_imp (List.mem_reverse.1 hc)

theorem rstripL_subset (l : List Char) (c : Char) (h : c ∈ rstripL l) : c ∈ l := by
  obtain ⟨t, ht, -⟩ := rstripL_append_exists l
  rw [← ht]
  exact List.mem_append_left t h

theorem rstripL_append_singleton (l : List Char) (c : Char)
    (h : pyIsSpace c = false) : rstripL (l ++ [c]) = l ++ [c] := by
  rw [rstripL, List.reverse_append]
  simp only [List.reverse_cons, List.reverse_nil, List.nil_append, List.singleton_append]
  rw [List.dropWhile_cons, if_neg (by simp [h])]
  simp

theorem pyStripL_infix (l : List Char) :
    ∃ s t, s ++ pyStripL l ++ t = l ∧ (∀ c ∈ s, pyIsSpace c = true) ∧
      (∀ c ∈ t, pyIsSpace c = true) := by
  obtain ⟨t, ht, hws⟩ := rstripL_append_exists (l.dropWhile pyIsSpace)
  refine ⟨l.takeWhile pyIsSpace, t, ?_, ?_, hws⟩
  · rw [pyStripL, List.append_assoc, ht, List.takeWhile_append_dropWhile]
  · intro c hc
    exact List.mem_takeWhile_imp hc

theorem pyStripL_head (l : List Char) (c : Char)
    (h : (pyStripL l).head? = some c) : pyIsSpace c = false := by
  rw [pyStripL] at h
  obtain ⟨t, ht, -⟩ := rstripL_append_exists (l.dropWhile pyIsSpace)
  cases hd : rstripL (l.dropWhile pyIsSpace) with
  | nil => rw [hd] at h; simp at h
  | cons a t2 =>
    rw [hd] at h
    rw [hd] at ht
    simp only [List.head?_cons, Option.some.injEq] at h
    cases he : l.dropWhile pyIsSpace with
    | nil => rw [he] at ht; simp at ht
    | cons b t3 =>
      rw [he] at ht
      have hb : b = a := by
        have := congrArg List.head? ht
        simpa using this.symm
      have hba := dropWhile_head_false pyIsSpace l b t3 he
      rw [hb] at hba
      exact h ▸ hba

theorem pyStripL_getLast (l : List Char) (c : Char)
    (h : (pyStripL l).getLast? = some c) : pyIsSpace c = false :=
  rstripL_getLast _ c h

theorem pyStripL_eq_self (l : List Char)
    (hh : ∀ c, l.head? = some c → pyIsSpace c = false)
    (hl : ∀ c, l.getLast? = some c → pyIsSpace c = false) : pyStripL l = l := by
  have h1 : l.dropWhile pyIsSpace = l := by
    cases l with
    | nil => rfl
    | cons a t => rw [List.dropWhile_cons, if_neg (by simp [hh a rfl])]
  rw [pyStripL, h1]
  exact rstripL_eq_self l hl

theorem intercalate_single (x : List Char) : List.intercalate ['\n'] [x] = x := by
  simp [List.intercalate]

theorem intercalate_cons₂ (x y : List Char) (ys : List (List Char)) :
    List.intercalate ['\n'] (x :: y :: ys) =
      x ++ '\n' :: List.intercalate ['\n'] (y :: ys) := by
  simp [List.intercalate, List.intersperse]

theorem chain_nwn_of_no_nl (l : List Char) (h : ∀ c ∈ l, c ≠ '\n') :
    List.Chain' NoWsNl l := by
  induction l with
  | nil => exact List.chain'_nil
  | cons a t ih =>
    refine List.chain'_cons'.2 ⟨?_, ih (fun c hc => h c (List.mem_cons_of_mem a hc))⟩
    intro b hb
    rintro ⟨-, -, hbn⟩
    cases t with
    | nil => simp at hb
    | cons x xs =>
      simp only [List.head?_cons, Option.mem_def, Option.some.injEq] at hb
      subst hb
      exact h x (List.mem_cons_of_mem a (List.mem_cons_self x xs)) hbn

theorem intercalate_chain_nwn : ∀ (ls : List (List Char)),
    (∀ l ∈ ls, ∀ c ∈ l, c ≠ '\n') →
    (∀ l ∈ ls, ∀ c, l.getLast? = some c → pyIsSpace c = false) →
    List.Chain' NoWsNl (List.intercalate ['\n'] ls) := by
  intro ls
  induction ls with
  | nil => intro _ _; exact List.chain'_nil
  | cons x ys ih =>
    intro hnl hlast
    cases ys with
    | nil =>
      rw [intercalate_single]
      exact chain_nwn_of_no_nl x (hnl x (List.mem_singleton.2 rfl))
    | cons y ys2 =>
      rw [intercalate_cons₂]
      refine List.chain'_append.2
        ⟨chain_nwn_of_no_nl x (hnl x (List.mem_cons_self x _)), ?_, ?_⟩
      · refine List.chain'_cons'.2 ⟨?_, ?_⟩
        · intro b hb
          rintro ⟨-, hne, -⟩
          exact hne rfl
        · exact ih (fun l hl => hnl l (List.mem_cons_of_mem x hl))
            (fun l hl => hlast l (List.mem_cons_of_mem x hl))
      · intro a ha b hb
        simp only [List.head?_cons, Option.mem_def, Option.some.injEq] at hb
        subst hb
        rintro ⟨hws, -, -⟩
        have hf := hlast x (List.mem_cons_self x _) a ha
        rw [hf] at hws
        exact absurd hws (by simp)

theorem intercalate_chain_nts : ∀ (ls : List (List Char)),
    (∀ l ∈ ls, List.Chain' NoTwoSpaces l) →
    List.Chain' NoTwoSpaces (List.intercalate ['\n'] ls) := by
  intro ls
  induction ls with
  | nil => intro _; exact List.chain'_nil
  | cons x ys ih =>
    intro hch
    cases ys with
    | nil =>
      rw [intercalate_single]
      exact hch x (List.mem_singleton.2 rfl)
    | cons y ys2 =>
      rw [intercalate_cons₂]
      refine List.chain'_append.2 ⟨hch x (List.mem_cons_self x _), ?_, ?_⟩
      · refine List.chain'_cons'.2 ⟨?_, ih (fun l hl => hch l (List.mem_cons_of_mem x hl))⟩
        intro b hb
        rintro ⟨h1, -⟩
        exact absurd h1 (by decide)
      · intro a ha b hb
        simp only [List.head?_cons, Option.mem_def, Option.some.injEq] at hb
        subst hb
        rintro ⟨-, h2⟩
        exact absurd h2 (by decide)

theorem intercalate_all (p : Char → Bool) (hp : p '\n' = true) :
    ∀ (ls : List (List Char)),
    (∀ l ∈ ls, ∀ c ∈ l, p c = true) →
    ∀ c ∈ List.intercalate ['\n'] ls, p c = true := by
  intro ls
  induction ls with
  | nil => intro _ c hc; simp [List.intercalate] at hc
  | cons x ys ih =>
    intro h c hc
    cases ys with
    | nil =>
      rw [intercalate_single] at hc
      exact h x (List.mem_singleton.2 rfl) c hc
    | cons y ys2 =>
      rw [intercalate_cons₂] at hc
      rcases List.mem_append.1 hc with hc | hc
      · exact h x (List.mem_cons_self x _) c hc
      · rcases List.mem_cons.1 hc with rfl | hc
        · exact hp
        · exact ih (fun l hl => h l (List.mem_cons_of_mem x hl)) c hc

theorem splitlines_join_id : ∀ (n : Nat) (t acc : List Char),
    t.length < n →
    (∀ c ∈ t, isLineTerm c = false ∨ c = '\n') →
    List.Chain' NoWsNl t →
    (∀ c, t.getLast? = some c → pyIsSpace c = false) →
    ((t = [] ∨ t.head? = some '\n') → rstripL acc.reverse = acc.reverse) →
    List.intercalate ['\n'] ((splitlinesAuxF n t acc).map rstripL) = acc.reverse ++ t := by
  intro n t acc
  induction n, t, acc using splitlinesAuxF.induct with
  | case1 t acc => intro hlen _ _ _ _; omega
  | case2 n acc hemp =>
    intro _ _ _ _ _
    rw [splitlinesAuxF, if_pos hemp]
    rw [List.isEmpty_iff] at hemp
    subst hemp
    rfl
  | case3 n acc hemp =>
    intro _ _ _ _ h4
    rw [splitlinesAuxF, if_neg hemp]
    simp only [List.map_cons, List.map_nil]
    rw [intercalate_single, h4 (Or.inl rfl)]
    simp
  | case4 n c rest acc ht hcr ih =>
    intro hlen hC2 hch hlast h4
    have hc : c = '\r' := by
      simp only [Bool.and_eq_true, decide_eq_true_eq] at hcr
      exact hcr.1
    rcases hC2 c (List.mem_cons_self c rest) with hf | hf
    · rw [ht] at hf; exact absurd hf (by simp)
    · rw [hc] at hf; exact absurd hf (by decide)
  | case5 n c rest acc ht hcr ih =>
    intro hlen hC2 hch hlast h4
    have hc : c = '\n' := by
      rcases hC2 c (List.mem_cons_self c rest) with hf | hf
      · rw [ht] at hf; exact absurd hf (by simp)
      · exact hf
    subst hc
    rw [splitlinesAuxF, if_pos ht, if_neg hcr]
    have hrest : rest ≠ [] := by
      intro h
      subst h
      have := hlast '\n' rfl
      exact absurd this (by decide)
    have hlen2 : rest.length < n := by
      simp only [List.length_cons] at hlen; omega
    have hne := splitlines_ne_nil n rest [] (Or.inl hrest) hlen2
    obtain ⟨z, zs, hz⟩ := List.exists_cons_of_ne_nil hne
    have hih := ih hlen2 (fun x hx => hC2 x (List.mem_cons_of_mem _ hx))
      (List.Chain'.tail hch) ?_ (fun _ => rfl)
    · rw [hz]
      simp only [List.map_cons]
      rw [intercalate_cons₂]
      rw [hz] at hih
      simp only [List.map_cons, List.reverse_nil, List.nil_append] at hih
      rw [h4 (Or.inr rfl), hih]
    · intro x hx
      apply hlast x
      cases rest with
      | nil => exact absurd rfl hrest
      | cons d r2 => rw [List.getLast?_cons_cons]; exact hx
  | case6 n c rest acc ht ih =>
    intro hlen hC2 hch hlast h4
    rw [splitlinesAuxF, if_neg ht]
    have hcnl : c ≠ '\n' := by
      intro h
      rw [h] at ht
      exact ht (by decide)
    have hih := ih ?_ (fun x hx => hC2 x (List.mem_cons_of_mem _ hx))
      (List.Chain'.tail hch) ?_ ?_
    · rw [hih]
      simp
    · simp only [List.length_cons] at hlen; omega
    · intro x hx
      apply hlast x
      cases rest with
      | nil => simp at hx
      | cons d r2 => rw [List.getLast?_cons_cons]; exact hx
    · intro hcase
      rw [List.reverse_cons]
      apply rstripL_append_singleton
      rcases hcase with hre | hhd
      · subst hre
        exact hlast c (by simp)
      · cases rest with
        | nil => simp at hhd
        | cons d r2 =>
          simp only [List.head?_cons, Option.some.injEq] at hhd
          subst hhd
          have hpair : NoWsNl c '\n' := (List.chain'_cons.1 hch).1
          by_contra hbad
          exact hpair ⟨by simpa using hbad, hcnl, rfl⟩

theorem startsWith_le_length : ∀ (p w : List Char),
    startsWithL p w = true → p.length ≤ w.length := by
  intro p
  induction p with
  | nil => intro w _; simp
  | cons a p2 ih =>
    intro w h
    cases w with
    | nil => simp [startsWithL] at h
    | cons b w2 =>
      rw [startsWithL, Bool.and_eq_true] at h
      simpa using ih w2 h.2

theorem startsWith_append_ws : ∀ (p w r : List Char),
    (∀ c ∈ p, pyIsSpace c = false) →
    (∀ c, r.head? = some c → pyIsSpace c = true) →
    startsWithL p (w ++ r) = startsWithL p w := by
  intro p
  induction p with
  | nil => intro w r _ _; rfl
  | cons a p2 ih =>
    intro w r hp hr
    cases w with
    | nil =>
      simp only [List.nil_append]
      cases r with
      | nil => rfl
      | cons b r2 =>
        rw [startsWithL]
        have hb := hr b rfl
        have ha := hp a (List.mem_cons_self a p2)
        have : (a = b) = False := by
          simp only [eq_iff_iff, iff_false]
          intro h
          rw [h, hb] at ha
          exact absurd ha (by simp)
        show (decide (a = b) && startsWithL p2 r2) = startsWithL (a :: p2) []
        simp [this, startsWithL]
    | cons b w2 =>
      show (decide (a = b) && startsWithL p2 (w2 ++ r)) =
        (decide (a = b) && startsWithL p2 w2)
      rw [ih w2 r (fun c hc => hp c (List.mem_cons_of_mem a hc)) hr]

theorem ws_not_digit (c : Char) (h : pyIsSpace c = true) : Char.isDigit c = false := by
  simp only [pyIsSpace, Bool.or_eq_true, decide_eq_true_eq, Bool.and_eq_true] at h
  rcases h with ((((((((((((((((((rfl|rfl)|rfl)|rfl)|rfl)|rfl)|rfl)|rfl)|rfl)|rfl)|rfl)|rfl)|rfl)|hrange)|rfl)|rfl)|rfl)|rfl)|rfl)
  all_goals try decide
  obtain ⟨h1, h2⟩ := hrange
  have h3 : ('\u2000' : Char).val.toNat ≤ c.val.toNat := Char.le_def.1 h1
  have h4 : ('\u2000' : Char).val.toNat = 8192 := by decide
  simp only [Char.isDigit, Bool.and_eq_false_iff]
  right
  simp only [decide_eq_false_iff_not]
  intro hle
  have h5 : c.val.toNat ≤ (57 : UInt32).toNat := hle
  have h6 : (57 : UInt32).toNat = 57 := by decide
  omega

theorem takeWhile_digit_append_ws (w r : List Char)
    (hr : ∀ c, r.head? = some c → pyIsSpace c = true) :
    (w ++ r).takeWhile Char.isDigit = w.takeWhile Char.isDigit := by
  rw [List.takeWhile_append]
  split
  · rename_i hlen
    have hw : w.takeWhile Char.isDigit = w :=
      List.Sublist.eq_of_length (List.takeWhile_sublist _) hlen
    have hr0 : r.takeWhile Char.isDigit = [] := by
      cases r with
      | nil => rfl
      | cons a r2 => simp [List.takeWhile_cons, ws_not_digit a (hr a rfl)]
    rw [hr0, hw]
    simp
  · rfl

theorem isFileciteAt_append_ws (w r : List Char)
    (hr : ∀ c, r.head? = some c → pyIsSpace c = true) :
    isFileciteAt (w ++ r) = isFileciteAt w := by
  rw [isFileciteAt, isFileciteAt]
  exact startsWith_append_ws "filecite".toList w r (by decide) hr

theorem turnMatchLen_append_ws (w r : List Char)
    (hr : ∀ c, r.head? = some c → pyIsSpace c = true) :
    turnMatchLen (w ++ r) = turnMatchLen w := by
  rw [turnMatchLen, turnMatchLen,
    startsWith_append_ws "turn".toList w r (by decide) hr]
  by_cases h1 : startsWithL "turn".toList w = true
  · rw [if_pos h1, if_pos h1]
    have hw4 : 4 ≤ w.length := by simpa using startsWith_le_length _ w h1
    rw [List.drop_append_of_le_length hw4,
      takeWhile_digit_append_ws (w.drop 4) r hr]
    by_cases h2 : ((w.drop 4).takeWhile Char.isDigit).isEmpty = true
    · rw [if_pos h2, if_pos h2]
    · rw [if_neg h2, if_neg h2]
      have hlen2 : 4 + ((w.drop 4).takeWhile Char.isDigit).length ≤ w.length := by
        have hs := List.Sublist.length_le
          (List.takeWhile_sublist (l := w.drop 4) Char.isDigit)
        simp only [List.length_drop] at hs
        omega
      rw [List.drop_append_of_le_length hlen2,
        startsWith_append_ws "file".toList _ r (by decide) hr]
      by_cases h3 : startsWithL "file".toList
          (w.drop (4 + ((w.drop 4).takeWhile Char.isDigit).length)) = true
      · rw [if_pos h3, if_pos h3]
        have hw44 : 4 ≤
            (w.drop (4 + ((w.drop 4).takeWhile Char.isDigit).length)).length := by
          simpa using startsWith_le_length _ _ h3
        have hlen3 : 4 + ((w.drop 4).takeWhile Char.isDigit).length + 4 ≤ w.length := by
          simp only [List.length_drop] at hw44
          omega
        rw [List.drop_append_of_le_length hlen3,
          takeWhile_digit_append_ws _ r hr]
      · rw [if_neg h3, if_neg h3]
  · rw [if_neg h1, if_neg h1]

theorem fw_drop_head_ws (z : List Char) :
    ∀ c, (z.dropWhile (fun c => !pyIsSpace c)).head? = some c → pyIsSpace c = true := by
  intro c hc
  cases hd : z.dropWhile (fun c => !pyIsSpace c) with
  | nil => rw [hd] at hc; simp at hc
  | cons a t =>
    rw [hd] at hc
    simp only [List.head?_cons, Option.some.injEq] at hc
    have ha := dropWhile_head_false _ z a t hd
    simp only [Bool.not_eq_false'] at ha
    exact hc ▸ ha

theorem turnMatchLen_eq_fw (z : List Char) :
    turnMatchLen z = turnMatchLen (z.takeWhile (fun c => !pyIsSpace c)) := by
  conv_lhs => rw [← List.takeWhile_append_dropWhile (fun c => !pyIsSpace c) z]
  exact turnMatchLen_append_ws _ _ (fw_drop_head_ws z)

theorem isFileciteAt_eq_fw (z : List Char) :
    isFileciteAt z = isFileciteAt (z.takeWhile (fun c => !pyIsSpace c)) := by
  conv_lhs => rw [← List.takeWhile_append_dropWhile (fun c => !pyIsSpace c) z]
  exact isFileciteAt_append_ws _ _ (fw_drop_head_ws z)

theorem collapse_fw (z : List Char) :
    (collapseSpaces z).takeWhile (fun c => !pyIsSpace c) =
      z.takeWhile (fun c => !pyIsSpace c) := by
  induction z with
  | nil => rfl
  | cons c rest ih =>
    by_cases h : (c = ' ' && headIsSpace rest) = true
    · rw [collapseSpaces, if_pos h, ih]
      simp only [Bool.and_eq_true, decide_eq_true_eq] at h
      obtain ⟨rfl, hh⟩ := h
      cases rest with
      | nil => simp [headIsSpace] at hh
      | cons d r2 =>
        simp only [headIsSpace, decide_eq_true_eq] at hh
        subst hh
        rw [List.takeWhile_cons, List.takeWhile_cons]
        have hsp : pyIsSpace ' ' = true := by decide
        simp [hsp]
    · rw [collapseSpaces, if_neg h]
      rw [List.takeWhile_cons, List.takeWhile_cons]
      by_cases hc : (!pyIsSpace c) = true
      · rw [if_pos hc, if_pos hc, ih]
      · rw [if_neg hc, if_neg hc]

theorem turnMatchLen_collapse (z : List Char) :
    turnMatchLen (collapseSpaces z) = turnMatchLen z := by
  rw [turnMatchLen_eq_fw (collapseSpaces z), collapse_fw, ← turnMatchLen_eq_fw]

theorem isFileciteAt_collapse (z : List Char) :
    isFileciteAt (collapseSpaces z) = isFileciteAt z := by
  rw [isFileciteAt_eq_fw (collapseSpaces z), collapse_fw, ← isFileciteAt_eq_fw]

theorem hasTurnFile_collapse (x : List Char)
    (h : hasTurnFile (collapseSpaces x) = true) : hasTurnFile x = true := by
  induction x with
  | nil => simpa [collapseSpaces, hasTurnFile] using h
  | cons c rest ih =>
    rw [hasTurnFile]
    by_cases hcond : (c = ' ' && headIsSpace rest) = true
    · rw [collapseSpaces, if_pos hcond] at h
      simp [ih h]
    · rw [collapseSpaces, if_neg hcond, hasTurnFile] at h
      simp only [Bool.or_eq_true] at h ⊢
      rcases h with h | h
      · left
        have he : c :: collapseSpaces rest = collapseSpaces (c :: rest) := by
          rw [collapseSpaces, if_neg hcond]
        rw [he, turnMatchLen_collapse] at h
        exact h
      · right; exact ih h

theorem hasFilecite_collapse (x : List Char)
    (h : hasFilecite (collapseSpaces x) = true) : hasFilecite x = true := by
  induction x with
  | nil => simpa [collapseSpaces, hasFilecite] using h
  | cons c rest ih =>
    rw [hasFilecite]
    by_cases hcond : (c = ' ' && headIsSpace rest) = true
    · rw [collapseSpaces, if_pos hcond] at h
      simp [ih h]
    · rw [collapseSpaces, if_neg hcond, hasFilecite] at h
      simp only [Bool.or_eq_true] at h ⊢
      rcases h with h | h
      · left
        have he : c :: collapseSpaces rest = collapseSpaces (c :: rest) := by
          rw [collapseSpaces, if_neg hcond]
        rw [he, isFileciteAt_collapse] at h
        exact h
      · right; exact ih h

theorem lineTerm_ws (c : Char) (h : isLineTerm c = true) : pyIsSpace c = true := by
  simp only [isLineTerm, Bool.or_eq_true, decide_eq_true_eq] at h
  rcases h with (((((((((rfl|rfl)|rfl)|rfl)|rfl)|rfl)|rfl)|rfl)|rfl)|rfl)
  all_goals decide

theorem head_ws_of_all_ws (u : List Char) (hu : ∀ c ∈ u, pyIsSpace c = true) :
    ∀ c, u.head? = some c → pyIsSpace c = true := by
  intro c hc
  cases u with
  | nil => simp at hc
  | cons a r =>
    simp only [List.head?_cons, Option.some.injEq] at hc
    exact hc ▸ hu a (List.mem_cons_self a r)

theorem tml_nl_none (cs : List Char) : turnMatchLen ('\n' :: cs) = none := by
  have h : startsWithL "turn".toList ('\n' :: cs) = false := by
    show (decide ('t' = '\n') && startsWithL ['u', 'r', 'n'] cs) = false
    rw [show (decide ('t' = '\n')) = false from by decide, Bool.false_and]
  rw [turnMatchLen, if_neg (by rw [h]; simp)]

theorem isF_nl_false (cs : List Char) : isFileciteAt ('\n' :: cs) = false := by
  rw [isFileciteAt]
  show (decide ('f' = '\n') && startsWithL ['i', 'l', 'e', 'c', 'i', 't', 'e'] cs) = false
  rw [show (decide ('f' = '\n')) = false from by decide, Bool.false_and]

theorem hasTurnFile_append_ws_iff (m b : List Char)
    (hb : ∀ c, b.head? = some c → pyIsSpace c = true) :
    hasTurnFile (m ++ b) = (hasTurnFile m || hasTurnFile b) := by
  induction m with
  | nil => simp [hasTurnFile]
  | cons c m2 ih =>
    rw [List.cons_append, hasTurnFile, hasTurnFile]
    rw [← List.cons_append, turnMatchLen_append_ws (c :: m2) b hb]
    rw [ih, Bool.or_assoc]

theorem hasFilecite_append_ws_iff (m b : List Char)
    (hb : ∀ c, b.head? = some c → pyIsSpace c = true) :
    hasFilecite (m ++ b) = (hasFilecite m || hasFilecite b) := by
  induction m with
  | nil => simp [hasFilecite]
  | cons c m2 ih =>
    rw [List.cons_append, hasFilecite, hasFilecite]
    rw [← List.cons_append, isFileciteAt_append_ws (c :: m2) b hb]
    rw [ih, Bool.or_assoc]

theorem hasTurnFile_append_left (a m : List Char)
    (h : hasTurnFile m = true) : hasTurnFile (a ++ m) = true := by
  induction a with
  | nil => simpa using h
  | cons c a2 ih =>
    rw [List.cons_append, hasTurnFile, ih, Bool.or_true]

theorem hasFilecite_append_left (a m : List Char)
    (h : hasFilecite m = true) : hasFilecite (a ++ m) = true := by
  induction a with
  | nil => simpa using h
  | cons c a2 ih =>
    rw [List.cons_append, hasFilecite, ih, Bool.or_true]

theorem hasTurnFile_intercalate : ∀ (ls : List (List Char)),
    hasTurnFile (List.intercalate ['\n'] ls) = true → ∃ l ∈ ls, hasTurnFile l = true := by
  intro ls
  induction ls with
  | nil =>
    intro h
    rw [show List.intercalate ['\n'] ([] : List (List Char)) = [] from rfl, hasTurnFile] at h
    exact absurd h (by simp)
  | cons l rest ih =>
    intro h
    cases rest with
    | nil =>
      rw [intercalate_single] at h
      exact ⟨l, List.mem_cons_self l [], h⟩
    | cons l2 rest2 =>
      rw [intercalate_cons₂,
        hasTurnFile_append_ws_iff l _ (by
          intro c hc
          simp only [List.head?_cons, Option.some.injEq] at hc
          subst hc
          decide)] at h
      simp only [Bool.or_eq_true] at h
      rcases h with h | h
      · exact ⟨l, List.mem_cons_self l _, h⟩
      · rw [hasTurnFile] at h
        simp only [Bool.or_eq_true] at h
        rcases h with h | h
        · rw [tml_nl_none] at h
          simp at h
        · obtain ⟨x, hx, hhx⟩ := ih h
          exact ⟨x, List.mem_cons_of_mem l hx, hhx⟩

theorem hasFilecite_intercalate : ∀ (ls : List (List Char)),
    hasFilecite (List.intercalate ['\n'] ls) = true → ∃ l ∈ ls, hasFilecite l = true := by
  intro ls
  induction ls with
  | nil =>
    intro h
    rw [show List.intercalate ['\n'] ([] : List (List Char)) = [] from rfl, hasFilecite] at h
    exact absurd h (by simp)
  | cons l rest ih =>
    intro h
    cases rest with
    | nil =>
      rw [intercalate_single] at h
      exact ⟨l, List.mem_cons_self l [], h⟩
    | cons l2 rest2 =>
      rw [intercalate_cons₂,
        hasFilecite_append_ws_iff l _ (by
          intro c hc
          simp only [List.head?_cons, Option.some.injEq] at hc
          subst hc
          decide)] at h
      simp only [Bool.or_eq_true] at h
      rcases h with h | h
      · exact ⟨l, List.mem_cons_self l _, h⟩
      · rw [hasFilecite] at h
        simp only [Bool.or_eq_true] at h
        rcases h with h | h
        · rw [isF_nl_false] at h
          simp at h
        · obtain ⟨x, hx, hhx⟩ := ih h
          exact ⟨x, List.mem_cons_of_mem l hx, hhx⟩

theorem splitlines_infix_ws : ∀ (n : Nat) (y acc l : List Char),
    l ∈ splitlinesAuxF n y acc →
    ∃ s t, s ++ l ++ t = acc.reverse ++ y ∧
      ∀ c, t.head? = some c → pyIsSpace c = true := by
  intro n y acc
  induction n, y, acc using splitlinesAuxF.induct with
  | case1 y acc => intro l hl; simp [splitlinesAuxF] at hl
  | case2 n acc hemp => intro l hl; rw [splitlinesAuxF, if_pos hemp] at hl; simp at hl
  | case3 n acc hemp =>
    intro l hl
    rw [splitlinesAuxF, if_neg hemp] at hl
    simp only [List.mem_singleton] at hl
    refine ⟨[], [], by simp [hl], ?_⟩
    intro c hc
    simp at hc
  | case4 n c rest acc ht hcr ih =>
    intro l hl
    rw [splitlinesAuxF, if_pos ht, if_pos hcr] at hl
    rcases List.mem_cons.1 hl with rfl | hl
    · refine ⟨[], c :: rest, by simp, ?_⟩
      intro d hd
      simp only [List.head?_cons, Option.some.injEq] at hd
      exact hd ▸ lineTerm_ws c ht
    · obtain ⟨s, t, heq, hts⟩ := ih l hl
      simp only [List.reverse_nil, List.nil_append] at heq
      cases rest with
      | nil => simp [headIsNl] at hcr
      | cons d rest2 =>
        have hd : d = '\n' := by
          simp only [headIsNl, Bool.and_eq_true, decide_eq_true_eq] at hcr
          exact hcr.2
        refine ⟨acc.reverse ++ c :: d :: s, t, ?_, hts⟩
        simp only [List.tail_cons] at heq
        rw [← heq]
        simp
  | case5 n c rest acc ht hcr ih =>
    intro l hl
    rw [splitlinesAuxF, if_pos ht, if_neg hcr] at hl
    rcases List.mem_cons.1 hl with rfl | hl
    · refine ⟨[], c :: rest, by simp, ?_⟩
      intro d hd
      simp only [List.head?_cons, Option.some.injEq] at hd
      exact hd ▸ lineTerm_ws c ht
    · obtain ⟨s, t, heq, hts⟩ := ih l hl
      simp only [List.reverse_nil, List.nil_append] at heq
      refine ⟨acc.reverse ++ c :: s, t, ?_, hts⟩
      rw [← heq]
      simp
  | case6 n c rest acc ht ih =>
    intro l hl
    rw [splitlinesAuxF, if_neg ht] at hl
    obtain ⟨s, t, heq, hts⟩ := ih l hl
    refine ⟨s, t, ?_, hts⟩
    rw [List.reverse_cons] at heq
    rw [heq]
    simp

theorem hasTurnFile_stripJoined (x : List Char)
    (h : hasTurnFile (stripJoined x) = true) : hasTurnFile x = true := by
  rw [stripJoined] at h
  obtain ⟨s, t, heq, hsws, htws⟩ := pyStripL_infix
    (List.intercalate ['\n'] ((splitlines (collapseSpaces x)).map rstripL))
  have hJ : hasTurnFile (List.intercalate ['\n']
      ((splitlines (collapseSpaces x)).map rstripL)) = true := by
    rw [← heq, List.append_assoc]
    apply hasTurnFile_append_left
    rw [hasTurnFile_append_ws_iff _ t (head_ws_of_all_ws t htws), h, Bool.true_or]
  obtain ⟨l1, hl1, hTl⟩ := hasTurnFile_intercalate _ hJ
  obtain ⟨l0, hl0, rfl⟩ := List.mem_map.1 hl1
  obtain ⟨w, hw, hwws⟩ := rstripL_append_exists l0
  have hl0T : hasTurnFile l0 = true := by
    rw [← hw, hasTurnFile_append_ws_iff _ w (head_ws_of_all_ws w hwws), hTl, Bool.true_or]
  rw [splitlines] at hl0
  obtain ⟨s2, t2, heq2, ht2⟩ := splitlines_infix_ws _ (collapseSpaces x) [] l0 hl0
  simp only [List.reverse_nil, List.nil_append] at heq2
  have hcoll : hasTurnFile (collapseSpaces x) = true := by
    rw [← heq2, List.append_assoc]
    apply hasTurnFile_append_left
    rw [hasTurnFile_append_ws_iff _ t2 ht2, hl0T, Bool.true_or]
  exact hasTurnFile_collapse x hcoll

theorem hasFilecite_stripJoined (x : List Char)
    (h : hasFilecite (stripJoined x) = true) : hasFilecite x = true := by
  rw [stripJoined] at h
  obtain ⟨s, t, heq, hsws, htws⟩ := pyStripL_infix
    (List.intercalate ['\n'] ((splitlines (collapseSpaces x)).map rstripL))
  have hJ : hasFilecite (List.intercalate ['\n']
      ((splitlines (collapseSpaces x)).map rstripL)) = true := by
    rw [← heq, List.append_assoc]
    apply hasFilecite_append_left
    rw [hasFilecite_append_ws_iff _ t (head_ws_of_all_ws t htws), h, Bool.true_or]
  obtain ⟨l1, hl1, hTl⟩ := hasFilecite_intercalate _ hJ
  obtain ⟨l0, hl0, rfl⟩ := List.mem_map.1 hl1
  obtain ⟨w, hw, hwws⟩ := rstripL_append_exists l0
  have hl0T : hasFilecite l0 = true := by
    rw [← hw, hasFilecite_append_ws_iff _ w (head_ws_of_all_ws w hwws), hTl, Bool.true_or]
  rw [splitlines] at hl0
  obtain ⟨s2, t2, heq2, ht2⟩ := splitlines_infix_ws _ (collapseSpaces x) [] l0 hl0
  simp only [List.reverse_nil, List.nil_append] at heq2
  have hcoll : hasFilecite (collapseSpaces x) = true := by
    rw [← heq2, List.append_assoc]
    apply hasFilecite_append_left
    rw [hasFilecite_append_ws_iff _ t2 ht2, hl0T, Bool.true_or]
  exact hasFilecite_collapse x hcoll

theorem cleanCitationsL_eq_stripJoined (x : List Char)
    (h1 : hasFilecite x = false) (h2 : hasTurnFile x = false)
    (h3 : ∀ c ∈ x, isBadChar c = false) :
    cleanCitationsL x = stripJoined x := by
  rw [cleanCitationsL, stripJoined, subFilecite_id x h1, subTurnFile_id x h2,
    List.filter_eq_self.2 (fun a ha => by simp [h3 a ha])]

theorem stripJoined_conds (x : List Char) :
    (∀ c ∈ stripJoined x, c = '\n' ∨ c ∈ x) ∧
    (∀ c ∈ stripJoined x, isLineTerm c = false ∨ c = '\n') ∧
    List.Chain' NoWsNl (stripJoined x) ∧
    List.Chain' NoTwoSpaces (stripJoined x) ∧
    (∀ c, (stripJoined x).head? = some c → pyIsSpace c = false) ∧
    (∀ c, (stripJoined x).getLast? = some c → pyIsSpace c = false) := by
  have hlines_term : ∀ l ∈ (splitlines (collapseSpaces x)).map rstripL,
      ∀ c ∈ l, isLineTerm c = false := by
    intro l hl c hc
    obtain ⟨l0, hl0, rfl⟩ := List.mem_map.1 hl
    exact splitlines_noterm _ (collapseSpaces x) [] (by simp) l0 hl0 c
      (rstripL_subset l0 c hc)
  have hlines_nl : ∀ l ∈ (splitlines (collapseSpaces x)).map rstripL,
      ∀ c ∈ l, c ≠ '\n' := by
    intro l hl c hc hne
    have := hlines_term l hl c hc
    rw [hne] at this
    exact absurd this (by decide)
  have hlines_last : ∀ l ∈ (splitlines (collapseSpaces x)).map rstripL,
      ∀ c, l.getLast? = some c → pyIsSpace c = false := by
    intro l hl c hc
    obtain ⟨l0, hl0, rfl⟩ := List.mem_map.1 hl
    exact rstripL_getLast l0 c hc
  have hlines_chain : ∀ l ∈ (splitlines (collapseSpaces x)).map rstripL,
      List.Chain' NoTwoSpaces l := by
    intro l hl
    obtain ⟨l0, hl0, rfl⟩ := List.mem_map.1 hl
    have hinf0 : l0 <:+: collapseSpaces x := by
      simpa using splitlines_infix _ (collapseSpaces x) [] l0 hl0
    have hch0 := List.Chain'.infix (collapseSpaces_chain x) hinf0
    obtain ⟨tt, htt, -⟩ := rstripL_append_exists l0
    exact List.Chain'.infix hch0 ⟨[], tt, by simp [htt]⟩
  have hlines_mem : ∀ l ∈ (splitlines (collapseSpaces x)).map rstripL,
      ∀ c ∈ l, c ∈ x := by
    intro l hl c hc
    obtain ⟨l0, hl0, rfl⟩ := List.mem_map.1 hl
    have hinf0 : l0 <:+: collapseSpaces x := by
      simpa using splitlines_infix _ (collapseSpaces x) [] l0 hl0
    exact collapseSpaces_subset x c
      (List.Sublist.subset (List.IsInfix.sublist hinf0) (rstripL_subset l0 c hc))
  have hu_all := intercalate_all (fun c => !isLineTerm c || c = '\n') (by decide)
    ((splitlines (collapseSpaces x)).map rstripL)
    (fun l hl c hc => by simp [hlines_term l hl c hc])
  have hu_mem := intercalate_all (fun c => c = '\n' || decide (c ∈ x)) (by simp)
    ((splitlines (collapseSpaces x)).map rstripL)
    (fun l hl c hc => by simp [hlines_mem l hl c hc])
  have hu_nwn := intercalate_chain_nwn _ hlines_nl hlines_last
  have hu_nts := intercalate_chain_nts _ hlines_chain
  obtain ⟨s0, t0, hst, -, -⟩ :=
    pyStripL_infix (List.intercalate ['\n'] ((splitlines (collapseSpaces x)).map rstripL))
  have htinf : stripJoined x <:+:
      List.intercalate ['\n'] ((splitlines (collapseSpaces x)).map rstripL) :=
    ⟨s0, t0, hst⟩
  have ht_sub : ∀ c ∈ stripJoined x,
      c ∈ List.intercalate ['\n'] ((splitlines (collapseSpaces x)).map rstripL) :=
    fun c hc => List.Sublist.subset (List.IsInfix.sublist htinf) hc
  refine ⟨?_, ?_, ?_, ?_, pyStripL_head _, pyStripL_getLast _⟩
  · intro c hc
    have := hu_mem c (ht_sub c hc)
    simp only [Bool.or_eq_true, decide_eq_true_eq] at this
    exact this
  · intro c hc
    have := hu_all c (ht_sub c hc)
    simp only [Bool.or_eq_true, Bool.not_eq_true', decide_eq_true_eq] at this
    exact this
  · exact List.Chain'.infix hu_nwn htinf
  · exact List.Chain'.infix hu_nts htinf

theorem cleanCitationsL_fix (t : List Char)
    (hf : hasFilecite t = false) (htf : hasTurnFile t = false)
    (hbad : ∀ c ∈ t, isBadChar c = false)
    (hall : ∀ c ∈ t, isLineTerm c = false ∨ c = '\n')
    (hnwn : List.Chain' NoWsNl t)
    (hnts : List.Chain' NoTwoSpaces t)
    (hhead : ∀ c, t.head? = some c → pyIsSpace c = false)
    (hlast : ∀ c, t.getLast? = some c → pyIsSpace c = false) :
    cleanCitationsL t = t := by
  rw [cleanCitationsL, subFilecite_id t hf, subTurnFile_id t htf,
    List.filter_eq_self.2 (fun a ha => by simp [hbad a ha]),
    collapseSpaces_id t hnts]
  have hjoin := splitlines_join_id (t.length + 1) t [] (Nat.lt_succ_self _)
    hall hnwn hlast (fun _ => rfl)
  simp only [List.reverse_nil, List.nil_append] at hjoin
  have hjoin2 : List.intercalate ['\n'] ((splitlines t).map rstripL) = t := by
    rw [splitlines]
    exact hjoin
  rw [hjoin2]
  exact pyStripL_eq_self t hhead hlast

/-- C7 counterexample: removing the inner `turn2file3` marker from
`turn1turn2file3file4` concatenates the remainder into the fresh marker
`turn1file4`, which only a second application removes — the cleanup
transform is not idempotent. -/
theorem clean_citations_not_idempotent :
    clean_citations "turn1turn2file3file4" = "turn1file4" ∧
    clean_citations (clean_citations "turn1turn2file3file4") = "" ∧
    ("turn1file4" : String) ≠ "" := by
  refine ⟨rfl, rfl, by decide⟩

/-- C7 amended: the cleanup transform is idempotent on every input free of
the substitution targets — no `filecite` marker, no `turn\d+file\d+` match,
and none of the filtered private-use or replacement characters. On such
inputs the two regex substitutions and the character filter are identities,
the whitespace normalization reaches a fixed point after one application,
and that fixed point is again marker-free, so applying the transform twice
agrees with applying it once. -/
theorem clean_citations_idempotent_sanitized (s : String)
    (h1 : hasFilecite s.toList = false)
    (h2 : hasTurnFile s.toList = false)
    (h3 : ∀ c ∈ s.toList, isBadChar c = false) :
    clean_citations (clean_citations s) = clean_citations s := by
  have hcc : clean_citations s = (stripJoined s.toList).asString := by
    rw [clean_citations, cleanCitationsL_eq_stripJoined s.toList h1 h2 h3]
  obtain ⟨hsub, hall, hnwn, hnts, hhead, hlast⟩ := stripJoined_conds s.toList
  have hf : hasFilecite (stripJoined s.toList) = false := by
    cases hx : hasFilecite (stripJoined s.toList) with
    | false => rfl
    | true =>
      have hh := hasFilecite_stripJoined s.toList hx
      rw [h1] at hh
      exact Bool.noConfusion hh
  have htf : hasTurnFile (stripJoined s.toList) = false := by
    cases hx : hasTurnFile (stripJoined s.toList) with
    | false => rfl
    | true =>
      have hh := hasTurnFile_stripJoined s.toList hx
      rw [h2] at hh
      exact Bool.noConfusion hh
  have hbad : ∀ c ∈ stripJoined s.toList, isBadChar c = false := by
    intro c hc
    rcases hsub c hc with rfl | hcx
    · decide
    · exact h3 c hcx
  have hfix := cleanCitationsL_fix (stripJoined s.toList) hf htf hbad hall hnwn
    hnts hhead hlast
  rw [hcc, clean_citations, List.toList_asString, hfix]

/-- The amended C7 theorem at a concrete marker-free input with a double
space and interior digits. -/
theorem clean_citations_idempotent_sanitized_witness :
    (hasFilecite "Mo-Fr 7:00  bis 17:00 Uhr".toList = false ∧
     hasTurnFile "Mo-Fr 7:00  bis 17:00 Uhr".toList = false ∧
     ∀ c ∈ "Mo-Fr 7:00  bis 17:00 Uhr".toList, isBadChar c = false) ∧
    clean_citations (clean_citations "Mo-Fr 7:00  bis 17:00 Uhr") =
      clean_citations "Mo-Fr 7:00  bis 17:00 Uhr" :=
  ⟨⟨by decide, by decide, by decide⟩,
    clean_citations_idempotent_sanitized _ (by decide) (by decide) (by decide)⟩

/-- C9: the router's decision is a function of the content of the most
recent user-authored message only (two histories with the same last user
content are routed identically, whatever their other messages are), and a
history with no user message yields the no-action decision. -/
theorem decide_sql_action_spec (oracle : String → String) (h1 h2 : List Message)
    (he : lastUserContent h1 = lastUserContent h2) :
    decide_sql_action oracle h1 = decide_sql_action oracle h2 ∧
    (lastUserContent h1 = none → decide_sql_action oracle h1 = .ok noActionDecision) := by
  constructor
  · rw [decide_sql_action, decide_sql_action, he]
  · intro hn
    rw [decide_sql_action, hn]

theorem decide_sql_action_spec_witness :
    lastUserContent [⟨"user", "Hallo"⟩] =
      lastUserContent [⟨"assistant", "alt"⟩, ⟨"user", "Hallo"⟩] ∧
    decide_sql_action (fun _ => "plain text reply") [⟨"user", "Hallo"⟩] =
      decide_sql_action (fun _ => "plain text reply")
        [⟨"assistant", "alt"⟩, ⟨"user", "Hallo"⟩] :=
  ⟨rfl, (decide_sql_action_spec (fun _ => "plain text reply")
    [⟨"user", "Hallo"⟩] [⟨"assistant", "alt"⟩, ⟨"user", "Hallo"⟩] rfl).1⟩

end KBBE
